import Mathlib

/-!
Red-black tree of `DataStructure/main.cpp`.

The C++ program keeps a heap of `Node` records linked by `left`, `right` and
`parent` pointers.  The development below embeds it over trees whose parent
links are consistent: a tree is an algebraic value, and a `Node*` held by the
code (`x`, `z`, `w`, ...) is a *location*: the subtree hanging at the pointed
node together with the list of its ancestors, nearest first.  Reading
`x->parent` is looking at the first ancestor frame, `x == x->parent->left` is
the side recorded in that frame, `x == root` is an empty ancestor list, and a
null pointer is an absent (`nil`) subtree.  Every statement that dereferences
a null pointer makes the embedded function return `none`.

`int` values are only compared, never computed with, so they are embedded as
`Int`.
-/

namespace RBTree

/-! ## Data model -/

/-- The colour tag `enum Color { RED, BLACK }`. -/
inductive Color
  | RED
  | BLACK
deriving DecidableEq, Repr

/-- A subtree: `nil` is an absent child (`nullptr`), `node` carries the fields
`data`, `color`, `left`, `right` of `struct Node`. -/
inductive Tree
  | nil : Tree
  | node (data : Int) (color : Color) (left right : Tree) : Tree
deriving DecidableEq, Repr

/-- Which child of its parent a node is. -/
inductive Side
  | L
  | R
deriving DecidableEq, Repr

/-- One ancestor of a pointed node: the ancestor's `data` and `color`, the
side on which the pointed branch hangs, and the ancestor's other child. -/
structure Frame where
  side : Side
  data : Int
  color : Color
  sibling : Tree
deriving DecidableEq, Repr

/-- The chain of `parent` links from a node up to the root, parent first. -/
abbrev Path := List Frame

/-- A `Node*` together with the tree around it: `sub` is the subtree rooted at
the pointed node (`nil` for `nullptr`), `path` its ancestors. -/
structure Loc where
  sub : Tree
  path : Path
deriving DecidableEq, Repr

/-- Colour read through `getColor`: an absent node reads as BLACK. -/
def getColor : Tree → Color
  | .nil => .BLACK
  | .node _ c _ _ => c

/-- The assignment `n->color = c` on a present node (no effect on `nil`, which
the callers exclude with a null test). -/
def setColor (c : Color) : Tree → Tree
  | .nil => .nil
  | .node d _ l r => .node d c l r

/-- The other side. -/
def Side.other : Side → Side
  | .L => .R
  | .R => .L

/-- Rebuild the ancestor described by a frame around the subtree below it. -/
def Frame.fill (f : Frame) (t : Tree) : Tree :=
  match f.side with
  | .L => .node f.data f.color t f.sibling
  | .R => .node f.data f.color f.sibling t

/-- The whole tree (what `root` points to) seen from a location. -/
def plug : Tree → Path → Tree
  | t, [] => t
  | t, f :: p => plug (f.fill t) p

/-- The step `x = x->parent`; there is no parent above the root. -/
def Loc.up : Loc → Option Loc
  | ⟨_, []⟩ => none
  | ⟨t, f :: p⟩ => some ⟨f.fill t, p⟩

/-- The step `x = x->left`. -/
def Loc.left : Loc → Option Loc
  | ⟨.nil, _⟩ => none
  | ⟨.node d c l r, p⟩ => some ⟨l, ⟨.L, d, c, r⟩ :: p⟩

/-- The step `x = x->right`. -/
def Loc.right : Loc → Option Loc
  | ⟨.nil, _⟩ => none
  | ⟨.node d c l r, p⟩ => some ⟨r, ⟨.R, d, c, l⟩ :: p⟩

/-- Step to the child on the given side. -/
def Loc.down (s : Side) (x : Loc) : Option Loc :=
  match s with
  | .L => x.left
  | .R => x.right

/-- The assignment `x = root`. -/
def Loc.toRoot (x : Loc) : Loc := ⟨plug x.sub x.path, []⟩

/-! ## Rotation and transplant primitives -/

/-- `leftRotate(x)`: `y = x->right` takes the place of `x`, `x` becomes the
left child of `y` and receives the former left subtree of `y` as its right
subtree.  The result still points at `x`.  Fails when `x` or `x->right` is
absent (the code dereferences `y`). -/
def leftRotate : Loc → Option Loc
  | ⟨.node d c a (.node dy cy b e), p⟩ => some ⟨.node d c a b, ⟨.L, dy, cy, e⟩ :: p⟩
  | _ => none

/-- `rightRotate(x)`: the mirror image, with `y = x->left`. -/
def rightRotate : Loc → Option Loc
  | ⟨.node d c (.node dy cy a b) e, p⟩ => some ⟨.node d c b e, ⟨.R, dy, cy, a⟩ :: p⟩
  | _ => none

/-- `transplant(u, v)`: the parent of `u` (or `root`) now refers to `v`; the
result points at `v`. -/
def transplant (u : Loc) (v : Tree) : Loc := ⟨v, u.path⟩

/-- `minimum(x)`: follow `left` links while they are present. -/
def minimum : Tree → Path → Loc
  | .node d c (.node dl cl ll lr) r, p => minimum (.node dl cl ll lr) (⟨.L, d, c, r⟩ :: p)
  | t, p => ⟨t, p⟩

/-- `leftRotate(x->parent)` followed from `x`: when `x` is the left child it
stays the left child of its parent, when it is the right child it is the node
promoted above its parent. -/
def leftRotateParent (x : Loc) : Option Loc :=
  match x.path with
  | [] => none
  | p :: _ =>
    match p.side with
    | .L => x.up >>= leftRotate >>= Loc.left
    | .R => x.up >>= leftRotate >>= Loc.up

/-- `rightRotate(x->parent)` followed from `x`. -/
def rightRotateParent (x : Loc) : Option Loc :=
  match x.path with
  | [] => none
  | p :: _ =>
    match p.side with
    | .R => x.up >>= rightRotate >>= Loc.right
    | .L => x.up >>= rightRotate >>= Loc.up

/-- `rightRotate(w)` for the sibling `w` of `x`, followed from `x`: the
rotation happens inside the other child of `x->parent`. -/
def rightRotateSibling (x : Loc) : Option Loc :=
  match x.path with
  | [] => none
  | p :: _ =>
    x.up >>= Loc.down p.side.other >>= rightRotate >>= Loc.up >>= Loc.up >>= Loc.down p.side

/-- `leftRotate(w)` for the sibling `w` of `x`, followed from `x`. -/
def leftRotateSibling (x : Loc) : Option Loc :=
  match x.path with
  | [] => none
  | p :: _ =>
    x.up >>= Loc.down p.side.other >>= leftRotate >>= Loc.up >>= Loc.up >>= Loc.down p.side

/-- `rightRotate(z->parent->parent)` followed from `z`.  With `p = z->parent`
and `g = p->parent`: if `p` is the left child of `g` it is promoted, and `z`
either stays the left child of `p` or, as the right subtree of `p`, is handed
to `g`; if `p` is the right child of `g` the chain `g`, `p`, `z` is kept. -/
def rightRotateGrandparent (z : Loc) : Option Loc :=
  match z.path with
  | p :: g :: _ =>
    match g.side, p.side with
    | .L, .L => z.up >>= Loc.up >>= rightRotate >>= Loc.up >>= Loc.left
    | .L, .R => z.up >>= Loc.up >>= rightRotate >>= Loc.left
    | .R, s => z.up >>= Loc.up >>= rightRotate >>= Loc.right >>= Loc.down s
  | _ => none

/-- `leftRotate(z->parent->parent)` followed from `z`. -/
def leftRotateGrandparent (z : Loc) : Option Loc :=
  match z.path with
  | p :: g :: _ =>
    match g.side, p.side with
    | .R, .R => z.up >>= Loc.up >>= leftRotate >>= Loc.up >>= Loc.right
    | .R, .L => z.up >>= Loc.up >>= leftRotate >>= Loc.right
    | .L, s => z.up >>= Loc.up >>= leftRotate >>= Loc.left >>= Loc.down s
  | _ => none

/-! ## Insertion -/

/-- Lines 181-187 of `insertFixup` (parent is a left child): recolour the
parent BLACK and, when there is a grandparent, recolour it RED and rotate it
to the right. -/
def insertFixupOuterL (z : Loc) : Option Loc :=
  match z.path with
  | [] => some z
  | [p] => some ⟨z.sub, [{ p with color := .BLACK }]⟩
  | p :: g :: rest =>
    rightRotateGrandparent ⟨z.sub, { p with color := .BLACK } :: { g with color := .RED } :: rest⟩

/-- Lines 201-207 of `insertFixup` (parent is a right child). -/
def insertFixupOuterR (z : Loc) : Option Loc :=
  match z.path with
  | [] => some z
  | [p] => some ⟨z.sub, [{ p with color := .BLACK }]⟩
  | p :: g :: rest =>
    leftRotateGrandparent ⟨z.sub, { p with color := .BLACK } :: { g with color := .RED } :: rest⟩

/-- One pass through the body of the `while` loop of `insertFixup`, entered
with `z->parent` present and RED.  `z->parent->parent` is dereferenced
unconditionally, so a missing grandparent is a failure. -/
def insertFixupBody (z : Loc) : Option Loc :=
  match z.path with
  | p :: g :: rest =>
    match g.side with
    | .L =>
      -- y = z->parent->parent->right
      if getColor g.sibling = .RED then
        (Loc.mk z.sub ({ p with color := .BLACK } ::
          { g with color := .RED, sibling := setColor .BLACK g.sibling } :: rest)).up >>= Loc.up
      else
        match p.side with
        | .R => z.up >>= leftRotate >>= insertFixupOuterL
        | .L => insertFixupOuterL z
    | .R =>
      -- y = z->parent->parent->left
      if getColor g.sibling = .RED then
        (Loc.mk z.sub ({ p with color := .BLACK } ::
          { g with color := .RED, sibling := setColor .BLACK g.sibling } :: rest)).up >>= Loc.up
      else
        match p.side with
        | .L => z.up >>= rightRotate >>= insertFixupOuterR
        | .R => insertFixupOuterR z
  | _ => none

/-- The `while` loop of `insertFixup`: `z != root && z->parent &&
z->parent->color == RED`.  Each unit of fuel pays for one evaluation of the
loop condition. -/
def insertFixupLoop : Nat → Loc → Option Loc
  | 0, _ => none
  | fuel + 1, z =>
    match z.path with
    | [] => some z
    | p :: _ =>
      if p.color = .RED then insertFixupBody z >>= insertFixupLoop fuel
      else some z

/-- `insertFixup(z)`: run the loop, then `root->color = BLACK`.  The result
is the tree `root` points to. -/
def insertFixup (z : Loc) : Option Tree :=
  match insertFixupLoop (z.path.length + 1) z with
  | none => none
  | some z1 =>
    match plug z1.sub z1.path with
    | .nil => none
    | .node d _ l r => some (.node d .BLACK l r)

/-- The descent of `insert`: from `x` go left when `data < x->data` and right
otherwise until an absent child is reached; the result is the chain of
ancestors of that position (its head is the node `y`). -/
def insertDescend (data : Int) : Tree → Path → Path
  | .nil, p => p
  | .node d c l r, p =>
    if data < d then insertDescend data l (⟨.L, d, c, r⟩ :: p)
    else insertDescend data r (⟨.R, d, c, l⟩ :: p)

/-- `insert(data)`: attach a new RED node without children at the position
found by the descent, then repair. -/
def insert (root : Tree) (data : Int) : Option Tree :=
  insertFixup ⟨.node data .RED .nil .nil, insertDescend data root []⟩

/-! ## Search -/

/-- The loop of `search`, started below the ancestors `p`. -/
def searchFrom (data : Int) : Tree → Path → Option Loc
  | .nil, _ => none
  | .node d c l r, p =>
    if data = d then some ⟨.node d c l r, p⟩
    else if data < d then searchFrom data l (⟨.L, d, c, r⟩ :: p)
    else searchFrom data r (⟨.R, d, c, l⟩ :: p)

/-- `search(data)`: the first node on the descent whose value equals `data`,
or `none` for `nullptr`. -/
def search (root : Tree) (data : Int) : Option Loc := searchFrom data root []

/-! ## Deletion -/

/-- Lines 84-89 of `deleteFixup` (`x` is a left child, `w` its sibling): when
`getColor(w) == RED`, recolour `w` BLACK and `x->parent` RED and rotate
`x->parent` to the left; `w` is read again from `x->parent->right`
afterwards. -/
def deleteFixupLeftCase1 (x : Loc) : Option Loc :=
  match x.path with
  | [] => none
  | p :: rest =>
    match p.sibling with
    | .node wd .RED wl wr =>
      leftRotateParent ⟨x.sub, { p with color := .RED, sibling := .node wd .BLACK wl wr } :: rest⟩
    | _ => some x

/-- Lines 101-112 of `deleteFixup`, entered with `w` present and one of its
children RED: when `getColor(w->right) == BLACK`, recolour and rotate `w` to
the right; then, if `w` is present, give `w` the colour of `x->parent`,
recolour `x->parent` and `w->right` BLACK and rotate `x->parent` to the left;
finally `x = root`. -/
def deleteFixupLeftCase34 (x1 : Loc) : Option Loc :=
  match x1.path with
  | [] => none
  | p1 :: rest1 =>
    match p1.sibling with
    | .nil => none
    | .node wd _ wl wr =>
      let afterCase3 : Option Loc :=
        if getColor wr = .BLACK then
          rightRotateSibling
            ⟨x1.sub, { p1 with sibling := .node wd .RED (setColor .BLACK wl) wr } :: rest1⟩
        else some x1
      match afterCase3 with
      | none => none
      | some x2 =>
        match x2.path with
        | [] => none
        | p2 :: rest2 =>
          match p2.sibling with
          -- if (w) fails: only x = root
          | .nil => some x2.toRoot
          | .node wd2 _ wl2 wr2 =>
            (leftRotateParent
              ⟨x2.sub, { p2 with color := .BLACK,
                                 sibling := .node wd2 p2.color wl2 (setColor .BLACK wr2) }
                :: rest2⟩).map Loc.toRoot

/-- Lines 91-113 of `deleteFixup`, after the first case: `w == nullptr`
moves `x` to its parent; two BLACK children of `w` recolour `w` RED and move
`x` to its parent; otherwise the rotations of `deleteFixupLeftCase34`. -/
def deleteFixupLeftRest (x1 : Loc) : Option Loc :=
  match x1.path with
  | [] => none
  | p1 :: rest1 =>
    match p1.sibling with
    -- w == nullptr: x = x->parent; continue
    | .nil => x1.up
    | .node wd _ wl wr =>
      if getColor wl = .BLACK ∧ getColor wr = .BLACK then
        -- w->color = RED; x = x->parent
        (Loc.mk x1.sub ({ p1 with sibling := .node wd .RED wl wr } :: rest1)).up
      else deleteFixupLeftCase34 x1

/-- The branch `x == x->parent->left` of the loop body of `deleteFixup`;
`w` is the right child of `x->parent`, i.e. the sibling recorded in the first
frame. -/
def deleteFixupLeft (x : Loc) : Option Loc :=
  match x.path with
  | [] => none
  | p :: _ =>
    match p.sibling with
    -- w == nullptr: x = x->parent; continue
    | .nil => x.up
    | .node _ _ _ _ => deleteFixupLeftCase1 x >>= deleteFixupLeftRest

/-- Lines 120-125 of `deleteFixup` (`x` is a right child): the mirror image of
`deleteFixupLeftCase1`. -/
def deleteFixupRightCase1 (x : Loc) : Option Loc :=
  match x.path with
  | [] => none
  | p :: rest =>
    match p.sibling with
    | .node wd .RED wl wr =>
      rightRotateParent ⟨x.sub, { p with color := .RED, sibling := .node wd .BLACK wl wr } :: rest⟩
    | _ => some x

/-- Lines 137-148 of `deleteFixup`: the mirror image of
`deleteFixupLeftCase34`. -/
def deleteFixupRightCase34 (x1 : Loc) : Option Loc :=
  match x1.path with
  | [] => none
  | p1 :: rest1 =>
    match p1.sibling with
    | .nil => none
    | .node wd _ wl wr =>
      let afterCase3 : Option Loc :=
        if getColor wl = .BLACK then
          leftRotateSibling
            ⟨x1.sub, { p1 with sibling := .node wd .RED wl (setColor .BLACK wr) } :: rest1⟩
        else some x1
      match afterCase3 with
      | none => none
      | some x2 =>
        match x2.path with
        | [] => none
        | p2 :: rest2 =>
          match p2.sibling with
          | .nil => some x2.toRoot
          | .node wd2 _ wl2 wr2 =>
            (rightRotateParent
              ⟨x2.sub, { p2 with color := .BLACK,
                                 sibling := .node wd2 p2.color (setColor .BLACK wl2) wr2 }
                :: rest2⟩).map Loc.toRoot

/-- Lines 127-149 of `deleteFixup`: the mirror image of
`deleteFixupLeftRest`. -/
def deleteFixupRightRest (x1 : Loc) : Option Loc :=
  match x1.path with
  | [] => none
  | p1 :: rest1 =>
    match p1.sibling with
    | .nil => x1.up
    | .node wd _ wl wr =>
      if getColor wr = .BLACK ∧ getColor wl = .BLACK then
        (Loc.mk x1.sub ({ p1 with sibling := .node wd .RED wl wr } :: rest1)).up
      else deleteFixupRightCase34 x1

/-- The branch `x == x->parent->right` of the loop body of `deleteFixup`;
`w` is the left child of `x->parent`. -/
def deleteFixupRight (x : Loc) : Option Loc :=
  match x.path with
  | [] => none
  | p :: _ =>
    match p.sibling with
    | .nil => x.up
    | .node _ _ _ _ => deleteFixupRightCase1 x >>= deleteFixupRightRest

/-- One pass through the body of the `while` loop of `deleteFixup`, entered
with `x` present, different from the root and BLACK.  The final `else`
(`x->parent == nullptr`) needs a node without parent that is not the root and
does not arise over consistent parent links. -/
def deleteFixupBody (x : Loc) : Option Loc :=
  match x.path with
  | [] => none
  | p :: _ =>
    match p.side with
    | .L => deleteFixupLeft x
    | .R => deleteFixupRight x

/-- The `while` loop of `deleteFixup`: `x != nullptr && x != root &&
getColor(x) == BLACK`.  Each unit of fuel pays for one evaluation of the loop
condition. -/
def deleteFixupLoop : Nat → Loc → Option Loc
  | 0, _ => none
  | fuel + 1, x =>
    if x.sub ≠ .nil ∧ x.path ≠ [] ∧ getColor x.sub = .BLACK then
      deleteFixupBody x >>= deleteFixupLoop fuel
    else some x

/-- `deleteFixup(x)`: run the loop, then `if (x) x->color = BLACK`.  The
result is the tree `root` points to. -/
def deleteFixup (x : Loc) : Option Tree :=
  (deleteFixupLoop (x.path.length + 1) x).map fun x1 => plug (setColor .BLACK x1.sub) x1.path

/-- The end of `deleteNode(Node*)`: `deleteFixup(x)` runs only when the
spliced-out node was BLACK and `x` is present. -/
def deleteFinish (yOriginalColor : Color) (x : Loc) : Option Tree :=
  if yOriginalColor = .BLACK ∧ x.sub ≠ .nil then deleteFixup x
  else some (plug x.sub x.path)

/-- Lines 252-280 of `deleteNode(Node *z)`: the colour `yOriginalColor` of
the node `y` that leaves its place and the node `x` that takes the place of
`y`, seen in the tree after the splice.  Without a left child `z` is replaced
by its right child, without a right child by its left child.  With both
children the minimum `y` of the right subtree is spliced out (replaced by
`x = y->right`) and takes the place and colour of `z`; `x` then hangs below
the left spine that led to `y`, inside the right subtree of the relocated
`y`.  The variable `yOriginalColor` is a `bool` initialised from a `Color`;
with `RED = 0` and `BLACK = 1` the later test `yOriginalColor == BLACK` holds
exactly for BLACK. -/
def deleteSplice (z : Loc) : Option (Color × Loc) :=
  match z.sub with
  | .nil => none
  | .node _ c .nil r => some (c, transplant z r)
  | .node _ c (.node dl cl ll lr) .nil => some (c, transplant z (.node dl cl ll lr))
  | .node _ c (.node dl cl ll lr) (.node dr cr rl rr) =>
    match minimum (.node dr cr rl rr) [] with
    | ⟨.nil, _⟩ => none
    | ⟨.node dy cy _ yr, spine⟩ =>
      some (cy, ⟨yr, spine ++ ⟨.R, dy, c, .node dl cl ll lr⟩ :: z.path⟩)

/-- `deleteNode(Node *z)`: the splice followed by the conditional call of
`deleteFixup`. -/
def deleteNodeAt (z : Loc) : Option Tree :=
  match deleteSplice z with
  | none => none
  | some (yOriginalColor, x) => deleteFinish yOriginalColor x

/-- `deleteNode(int data)`: nothing happens when `search` finds no node. -/
def deleteNode (root : Tree) (data : Int) : Option Tree :=
  match search root data with
  | none => some root
  | some z => deleteNodeAt z

/-! ## Sequences of public operations -/

/-- A call of one of the two mutating public operations. -/
inductive Op
  | insert (v : Int)
  | deleteNode (v : Int)
deriving DecidableEq, Repr

/-- Perform one call. -/
def Op.apply (t : Tree) : Op → Option Tree
  | .insert v => RBTree.insert t v
  | .deleteNode v => RBTree.deleteNode t v

/-- Perform the calls in order, starting from the tree `t`. -/
def runOps : Tree → List Op → Option Tree
  | t, [] => some t
  | t, op :: ops =>
    match op.apply t with
    | none => none
    | some t1 => runOps t1 ops

/-- Trees that some finite sequence of `insert` and `deleteNode` calls builds
from the empty tree. -/
def Reachable (t : Tree) : Prop := ∃ ops : List Op, runOps .nil ops = some t

/-! ## Observations and invariants -/

/-- In-order traversal: left subtree, node, right subtree. -/
def inorder : Tree → List Int
  | .nil => []
  | .node d _ l r => inorder l ++ d :: inorder r

/-- Number of nodes. -/
def size : Tree → Nat
  | .nil => 0
  | .node _ _ l r => size l + size r + 1

/-- Number of nodes on the longest path from the root down to an absent
child. -/
def height : Tree → Nat
  | .nil => 0
  | .node _ _ l r => max (height l) (height r) + 1

/-- Invariant 2: the root, if present, is BLACK. -/
def rootBlack (t : Tree) : Bool := getColor t = .BLACK

/-- Invariant 3: no RED node has a RED child. -/
def noRedRed : Tree → Bool
  | .nil => true
  | .node _ c l r =>
    (c = .BLACK || (getColor l = .BLACK && getColor r = .BLACK)) && noRedRed l && noRedRed r

/-- Contribution of a node to the count of BLACK nodes. -/
def Color.weight : Color → Nat
  | .RED => 0
  | .BLACK => 1

/-- Invariant 4: `some n` when every path from the root of the subtree to an
absent child passes through exactly `n` BLACK nodes, `none` when two paths
disagree. -/
def blackHeight : Tree → Option Nat
  | .nil => some 0
  | .node _ c l r =>
    match blackHeight l, blackHeight r with
    | some a, some b => if a = b then some (a + c.weight) else none
    | _, _ => none

/-- Invariant 5: the in-order traversal is non-decreasing. -/
def ordered (t : Tree) : Prop := (inorder t).Sorted (· ≤ ·)

instance (t : Tree) : Decidable (ordered t) := by unfold ordered; infer_instance

/-- The red-black invariants 2-5 together. -/
def RBInv (t : Tree) : Prop :=
  rootBlack t = true ∧ noRedRed t = true ∧ (blackHeight t).isSome = true ∧ ordered t

instance (t : Tree) : Decidable (RBInv t) := by unfold RBInv; infer_instance

/-! ## Auxiliary notions used by the proofs -/

/-- The in-order list of the nodes with their colours. -/
def nodes : Tree → List (Int × Color)
  | .nil => []
  | .node d c l r => nodes l ++ (d, c) :: nodes r

/-- Values that an in-order traversal of the whole tree visits before the
subtree at the end of a path. -/
def pathBefore : Path → List Int
  | [] => []
  | ⟨.L, _, _, _⟩ :: p => pathBefore p
  | ⟨.R, d, _, s⟩ :: p => pathBefore p ++ (inorder s ++ [d])

/-- Values that an in-order traversal of the whole tree visits after the
subtree at the end of a path. -/
def pathAfter : Path → List Int
  | [] => []
  | ⟨.L, d, _, s⟩ :: p => d :: inorder s ++ pathAfter p
  | ⟨.R, _, _, _⟩ :: p => pathAfter p

/-- The nearest ancestor exists and is BLACK. -/
def headBlack : Path → Prop
  | [] => False
  | f :: _ => f.color = .BLACK

/-- The ancestors of a position respect invariants 2 and 3 among themselves
and with the subtrees hanging off the path: every such subtree has no RED node
with a RED child, and a RED ancestor has a BLACK other child and a BLACK
parent (so the topmost ancestor, the root, is BLACK). -/
def pathOK : Path → Prop
  | [] => True
  | f :: rest =>
    noRedRed f.sibling = true ∧
    (f.color = .RED → getColor f.sibling = .BLACK ∧ headBlack rest) ∧
    pathOK rest

/-- The subtrees hanging off a path are balanced around a subtree of black
height `n` at its end. -/
def pathBal : Path → Nat → Prop
  | [], _ => True
  | f :: rest, n => blackHeight f.sibling = some n ∧ pathBal rest (n + f.color.weight)

/-- Every value of the tree satisfies `P`. -/
def allValues (P : Int → Prop) : Tree → Prop
  | .nil => True
  | .node d _ l r => P d ∧ allValues P l ∧ allValues P r

/-- Search-tree order with duplicates only to the right: at every node the
values of the left subtree are strictly smaller and those of the right subtree
are greater or equal. -/
def bstStrict : Tree → Prop
  | .nil => True
  | .node d _ l r =>
    allValues (fun v => v < d) l ∧ allValues (fun v => d ≤ v) r ∧ bstStrict l ∧ bstStrict r

/-- Search-tree order with duplicates on both sides: at every node the values
of the left subtree are smaller or equal and those of the right subtree are
greater or equal. -/
def bstWeak : Tree → Prop
  | .nil => True
  | .node d _ l r =>
    allValues (fun v => v ≤ d) l ∧ allValues (fun v => d ≤ v) r ∧ bstWeak l ∧ bstWeak r

/-- Invariants 2, 3 and 5: what every reachable tree satisfies. -/
def Good (t : Tree) : Prop :=
  rootBlack t = true ∧ noRedRed t = true ∧ ordered t

/-- The value stored in the node that a `search` result points to; `none` for
the not-found result. -/
def dataOf : Option Loc → Option Int
  | some ⟨.node d _ _ _, _⟩ => some d
  | _ => none

/-- The shape and the colours of a tree: every stored value is replaced by
0. -/
def skel : Tree → Tree
  | .nil => .nil
  | .node _ c l r => .node 0 c (skel l) (skel r)

/-- The shape and the colours of an ancestor. -/
def skelFrame (f : Frame) : Frame := ⟨f.side, 0, f.color, skel f.sibling⟩

/-- The shape and the colours of a tree seen from one of its positions. -/
def skelLoc (z : Loc) : Loc := ⟨skel z.sub, z.path.map skelFrame⟩


/-! ## Basic facts -/

@[simp] theorem plug_nil_path (t : Tree) : plug t [] = t := rfl

@[simp] theorem plug_cons (t : Tree) (f : Frame) (p : Path) :
    plug t (f :: p) = plug (f.fill t) p := rfl

theorem plug_append (t : Tree) (p q : Path) : plug t (p ++ q) = plug (plug t p) q := by
  induction p generalizing t with
  | nil => rfl
  | cons f p ih => simp [ih]

theorem inorder_fill (f : Frame) (t : Tree) :
    inorder (f.fill t) = pathBefore [f] ++ inorder t ++ pathAfter [f] := by
  obtain ⟨s, d, c, sib⟩ := f
  cases s <;> simp [Frame.fill, inorder, pathBefore, pathAfter]

theorem inorder_plug (t : Tree) (p : Path) :
    inorder (plug t p) = pathBefore p ++ inorder t ++ pathAfter p := by
  induction p generalizing t with
  | nil => simp [pathBefore, pathAfter]
  | cons f p ih =>
    obtain ⟨s, d, c, sib⟩ := f
    cases s <;> simp [ih, Frame.fill, inorder, pathBefore, pathAfter]

theorem color_ne_red {c : Color} : c ≠ .RED ↔ c = .BLACK := by cases c <;> simp

theorem color_ne_black {c : Color} : c ≠ .BLACK ↔ c = .RED := by cases c <;> simp

@[simp] theorem getColor_setColor_node (c : Color) (t : Tree) (h : t ≠ .nil) :
    getColor (setColor c t) = c := by
  cases t <;> simp_all [setColor, getColor]

theorem getColor_red_node {t : Tree} (h : getColor t = .RED) :
    ∃ d l r, t = .node d .RED l r := by
  cases t with
  | nil => simp [getColor] at h
  | node d c l r => simp [getColor] at h; exact ⟨d, l, r, by rw [h]⟩

@[simp] theorem inorder_setColor (c : Color) (t : Tree) : inorder (setColor c t) = inorder t := by
  cases t <;> simp [setColor, inorder]

theorem noRedRed_setColor_black {t : Tree} (h : noRedRed t = true) :
    noRedRed (setColor .BLACK t) = true := by
  cases t <;> simp_all [setColor, noRedRed]

theorem noRedRed_node {d : Int} {c : Color} {l r : Tree} :
    noRedRed (.node d c l r) = true ↔
      (c = .RED → getColor l = .BLACK ∧ getColor r = .BLACK) ∧
        noRedRed l = true ∧ noRedRed r = true := by
  cases c <;> simp [noRedRed, and_assoc]

theorem blackHeight_node {d : Int} {c : Color} {l r : Tree} {m : Nat} :
    blackHeight (.node d c l r) = some m ↔
      ∃ n, blackHeight l = some n ∧ blackHeight r = some n ∧ m = n + c.weight := by
  simp only [blackHeight]
  cases hl : blackHeight l <;> cases hr : blackHeight r <;> simp
  rename_i a b
  by_cases hab : a = b
  · subst hab; simp [eq_comm]
  · simp [hab]; intro h; exact absurd h.symm hab


theorem blackHeight_setColor_black {t : Tree} {n : Nat} (h : blackHeight t = some n)
    (hc : getColor t = .RED) : blackHeight (setColor .BLACK t) = some (n + 1) := by
  obtain ⟨d, l, r, rfl⟩ := getColor_red_node hc
  simp only [setColor]
  rw [blackHeight_node] at h ⊢
  obtain ⟨k, hl, hr, hk⟩ := h
  exact ⟨k, hl, hr, by simp [Color.weight] at hk ⊢; exact hk⟩

theorem noRedRed_fill {f : Frame} {t : Tree} :
    noRedRed (f.fill t) = true ↔
      (f.color = .RED → getColor t = .BLACK ∧ getColor f.sibling = .BLACK) ∧
        noRedRed t = true ∧ noRedRed f.sibling = true := by
  obtain ⟨s, d, c, sib⟩ := f
  cases s
  · simp [Frame.fill, noRedRed_node]
  · simp [Frame.fill, noRedRed_node]; tauto

@[simp] theorem getColor_fill (f : Frame) (t : Tree) : getColor (f.fill t) = f.color := by
  obtain ⟨s, d, c, sib⟩ := f
  cases s <;> rfl

theorem blackHeight_fill {f : Frame} {t : Tree} {m : Nat} :
    blackHeight (f.fill t) = some m ↔
      ∃ n, blackHeight t = some n ∧ blackHeight f.sibling = some n ∧ m = n + f.color.weight := by
  obtain ⟨s, d, c, sib⟩ := f
  cases s
  · simp [Frame.fill, blackHeight_node]
  · simp [Frame.fill, blackHeight_node]; tauto

/-- Plugging a subtree without red-red conflict below well-formed ancestors
gives a tree without red-red conflict. -/
theorem noRedRed_plug {p : Path} {t : Tree} (hp : pathOK p) (ht : noRedRed t = true)
    (hc : getColor t = .BLACK ∨ headBlack p) : noRedRed (plug t p) = true := by
  induction p generalizing t with
  | nil => simpa using ht
  | cons f rest ih =>
    obtain ⟨hs, hf, hrest⟩ := hp
    rw [plug_cons]
    apply ih hrest
    · rw [noRedRed_fill]
      refine ⟨fun hred => ⟨?_, (hf hred).1⟩, ht, hs⟩
      rcases hc with hc | hc
      · exact hc
      · simp [headBlack, hred] at hc
    · rw [getColor_fill]
      by_cases hred : f.color = .RED
      · exact Or.inr (hf hred).2
      · exact Or.inl (color_ne_red.1 hred)

/-- Below well-formed ancestors the root is BLACK. -/
theorem getColor_plug {p : Path} (t : Tree) (hp : pathOK p) (hne : p ≠ []) :
    getColor (plug t p) = .BLACK := by
  induction p generalizing t with
  | nil => exact absurd rfl hne
  | cons f rest ih =>
    obtain ⟨_, hf, hrest⟩ := hp
    rw [plug_cons]
    cases rest with
    | nil =>
      simp only [plug_nil_path, getColor_fill]
      by_contra hred
      exact (hf (color_ne_black.1 hred)).2
    | cons g rest => exact ih _ hrest (by simp)

/-- A tree with BLACK root and without red-red conflict, seen from any of its
positions. -/
theorem pathOK_of_plug {p : Path} {t : Tree} (h : noRedRed (plug t p) = true)
    (hr : getColor (plug t p) = .BLACK) :
    pathOK p ∧ noRedRed t = true ∧ (getColor t = .BLACK ∨ headBlack p) := by
  induction p generalizing t with
  | nil => exact ⟨trivial, by simpa using h, Or.inl (by simpa using hr)⟩
  | cons f rest ih =>
    rw [plug_cons] at h hr
    obtain ⟨hrest, hfill, hcol⟩ := ih h hr
    rw [noRedRed_fill] at hfill
    obtain ⟨hf, ht, hs⟩ := hfill
    rw [getColor_fill] at hcol
    refine ⟨⟨hs, fun hred => ⟨(hf hred).2, ?_⟩, hrest⟩, ht, ?_⟩
    · rcases hcol with hcol | hcol
      · rw [hred] at hcol; cases hcol
      · exact hcol
    · by_cases hred : f.color = .RED
      · exact Or.inl (hf hred).1
      · exact Or.inr (color_ne_red.1 hred)

theorem blackHeight_plug {p : Path} {t : Tree} {n : Nat} (hp : pathBal p n)
    (ht : blackHeight t = some n) : ∃ m, blackHeight (plug t p) = some m := by
  induction p generalizing t n with
  | nil => exact ⟨n, ht⟩
  | cons f rest ih =>
    obtain ⟨hs, hrest⟩ := hp
    exact ih hrest (blackHeight_fill.2 ⟨n, ht, hs, rfl⟩)

theorem pathBal_of_plug {p : Path} {t : Tree} {m : Nat} (h : blackHeight (plug t p) = some m) :
    ∃ n, blackHeight t = some n ∧ pathBal p n := by
  induction p generalizing t with
  | nil => exact ⟨m, h, trivial⟩
  | cons f rest ih =>
    obtain ⟨k, hk, hrest⟩ := ih h
    obtain ⟨n, ht, hs, rfl⟩ := blackHeight_fill.1 hk
    exact ⟨n, ht, hs, hrest⟩

theorem insertFixupBody_red (t : Tree) (p g : Frame) (rest : Path)
    (hu : getColor g.sibling = .RED) :
    insertFixupBody ⟨t, p :: g :: rest⟩ =
      some ⟨Frame.fill { g with color := .RED, sibling := setColor .BLACK g.sibling }
        (Frame.fill { p with color := .BLACK } t), rest⟩ := by
  obtain ⟨sg, gd, gc, gsib⟩ := g
  cases sg <;> simp_all [insertFixupBody, Loc.up]

theorem insertFixupBody_LL (t : Tree) (pd gd : Int) (pc gc : Color) (ps gs : Tree) (rest : Path)
    (hu : getColor gs = .BLACK) :
    insertFixupBody ⟨t, ⟨.L, pd, pc, ps⟩ :: ⟨.L, gd, gc, gs⟩ :: rest⟩ =
      some ⟨t, ⟨.L, pd, .BLACK, .node gd .RED ps gs⟩ :: rest⟩ := by
  simp [insertFixupBody, hu, insertFixupOuterL, rightRotateGrandparent, rightRotate, Loc.up,
    Loc.left, Frame.fill]

theorem insertFixupBody_RR (t : Tree) (pd gd : Int) (pc gc : Color) (ps gs : Tree) (rest : Path)
    (hu : getColor gs = .BLACK) :
    insertFixupBody ⟨t, ⟨.R, pd, pc, ps⟩ :: ⟨.R, gd, gc, gs⟩ :: rest⟩ =
      some ⟨t, ⟨.R, pd, .BLACK, .node gd .RED gs ps⟩ :: rest⟩ := by
  simp [insertFixupBody, hu, insertFixupOuterR, leftRotateGrandparent, leftRotate, Loc.up,
    Loc.right, Frame.fill]

theorem insertFixupBody_LR (zd pd gd : Int) (zc pc gc : Color) (zl zr ps gs : Tree) (rest : Path)
    (hu : getColor gs = .BLACK) :
    insertFixupBody ⟨.node zd zc zl zr, ⟨.R, pd, pc, ps⟩ :: ⟨.L, gd, gc, gs⟩ :: rest⟩ =
      some ⟨.node pd pc ps zl, ⟨.L, zd, .BLACK, .node gd .RED zr gs⟩ :: rest⟩ := by
  simp [insertFixupBody, hu, insertFixupOuterL, rightRotateGrandparent, rightRotate, leftRotate,
    Loc.up, Loc.left, Frame.fill]

theorem insertFixupBody_RL (zd pd gd : Int) (zc pc gc : Color) (zl zr ps gs : Tree) (rest : Path)
    (hu : getColor gs = .BLACK) :
    insertFixupBody ⟨.node zd zc zl zr, ⟨.L, pd, pc, ps⟩ :: ⟨.R, gd, gc, gs⟩ :: rest⟩ =
      some ⟨.node pd pc zr ps, ⟨.R, zd, .BLACK, .node gd .RED gs zl⟩ :: rest⟩ := by
  simp [insertFixupBody, hu, insertFixupOuterR, leftRotateGrandparent, rightRotate, leftRotate,
    Loc.up, Loc.right, Frame.fill]

/-- One pass through the loop body of `insertFixup` from a RED node with RED
parent: it succeeds, keeps the in-order sequence, re-establishes the loop
invariant, and either climbs two levels or ends below a BLACK parent. -/
theorem insertFixupBody_step {t : Tree} {p : Frame} {rest0 : Path}
    (ht : getColor t = .RED) (hn : noRedRed t = true)
    (hp : pathOK (p :: rest0)) (hred : p.color = .RED) :
    ∃ z, insertFixupBody ⟨t, p :: rest0⟩ = some z ∧
      inorder (plug z.sub z.path) = inorder (plug t (p :: rest0)) ∧
      getColor z.sub = .RED ∧ noRedRed z.sub = true ∧ pathOK z.path ∧
      (z.path.length + 2 = (p :: rest0).length ∨ headBlack z.path) ∧
      (∀ n, blackHeight t = some n → pathBal (p :: rest0) n →
        ∃ k, blackHeight z.sub = some k ∧ pathBal z.path k) := by
  obtain ⟨zd, zl, zr, rfl⟩ := getColor_red_node ht
  obtain ⟨hps, hpf, hrest0⟩ := hp
  obtain ⟨hpsb, hg⟩ := hpf hred
  cases rest0 with
  | nil => exact absurd hg (by simp [headBlack])
  | cons g rest =>
    obtain ⟨hgs, -, hrest⟩ := hrest0
    obtain ⟨sp, pd, pc, psib⟩ := p
    obtain ⟨sg, gd, gc, gsib⟩ := g
    simp only [headBlack] at hg
    simp only at hred hg hps hpsb hgs
    subst hred hg
    rw [noRedRed_node] at hn
    obtain ⟨hzc, hzl, hzr⟩ := hn
    obtain ⟨hzlb, hzrb⟩ := hzc rfl
    by_cases hu : getColor gsib = .RED
    · obtain ⟨ud, ul, ur, rfl⟩ := getColor_red_node hu
      rw [noRedRed_node] at hgs
      refine ⟨_, insertFixupBody_red _ _ _ _ hu, ?_⟩
      cases sg <;> cases sp <;>
        simp_all [Frame.fill, setColor, getColor, inorder, inorder_plug,
          noRedRed_node, blackHeight_node, pathBal, Color.weight]
    · have hub := color_ne_red.1 hu
      cases sg <;> cases sp
      · refine ⟨_, insertFixupBody_LL _ _ _ _ _ _ _ _ hub, ?_⟩
        simp_all [inorder, inorder_plug, pathBefore, pathAfter,
          noRedRed_node, blackHeight_node, pathBal, pathOK, headBlack, Color.weight, getColor]
      · refine ⟨_, insertFixupBody_LR _ _ _ _ _ _ _ _ _ _ _ hub, ?_⟩
        simp_all [inorder, inorder_plug, pathBefore, pathAfter,
          noRedRed_node, blackHeight_node, pathBal, pathOK, headBlack, Color.weight, getColor]
      · refine ⟨_, insertFixupBody_RL _ _ _ _ _ _ _ _ _ _ _ hub, ?_⟩
        simp_all [inorder, inorder_plug, pathBefore, pathAfter,
          noRedRed_node, blackHeight_node, pathBal, pathOK, headBlack, Color.weight, getColor]
      · refine ⟨_, insertFixupBody_RR _ _ _ _ _ _ _ _ hub, ?_⟩
        simp_all [inorder, inorder_plug, pathBefore, pathAfter,
          noRedRed_node, blackHeight_node, pathBal, pathOK, headBlack, Color.weight, getColor]

/-- With enough fuel the loop of `insertFixup` returns; it keeps the in-order
sequence and ends at a node whose ancestors are well formed and whose parent,
if any, is BLACK. -/
theorem insertFixupLoop_spec (fuel : Nat) (z : Loc)
    (ht : getColor z.sub = .RED) (hn : noRedRed z.sub = true) (hp : pathOK z.path)
    (hfuel : z.path.length + 1 ≤ fuel ∨ (0 < fuel ∧ (z.path = [] ∨ headBlack z.path))) :
    ∃ z1, insertFixupLoop fuel z = some z1 ∧
      inorder (plug z1.sub z1.path) = inorder (plug z.sub z.path) ∧
      getColor z1.sub = .RED ∧ noRedRed z1.sub = true ∧ pathOK z1.path ∧
      (z1.path = [] ∨ headBlack z1.path) ∧
      (∀ n, blackHeight z.sub = some n → pathBal z.path n →
        ∃ k, blackHeight z1.sub = some k ∧ pathBal z1.path k) := by
  induction fuel generalizing z with
  | zero => omega
  | succ fuel ih =>
    obtain ⟨t, path⟩ := z
    cases path with
    | nil => exact ⟨⟨t, []⟩, rfl, rfl, ht, hn, hp, Or.inl rfl, fun n h1 h2 => ⟨n, h1, h2⟩⟩
    | cons p rest =>
      by_cases hred : p.color = .RED
      · obtain ⟨z2, hz2, hin, hc2, hn2, hp2, hlen, hbal⟩ := insertFixupBody_step ht hn hp hred
        have hf2 : z2.path.length + 1 ≤ fuel ∨ (0 < fuel ∧ (z2.path = [] ∨ headBlack z2.path)) := by
          have hb : ¬ headBlack (p :: rest) := by simp [headBlack, hred]
          have h0 : (p :: rest).length + 1 ≤ fuel + 1 := by
            rcases hfuel with h | ⟨_, h | h⟩
            · exact h
            · cases h
            · exact absurd h hb
          simp only [List.length_cons] at h0 hlen
          rcases hlen with h | h
          · left; omega
          · right; exact ⟨by omega, Or.inr h⟩
        obtain ⟨z1, hz1, hin1, hc1, hn1, hp1, hend, hbal1⟩ := ih z2 hc2 hn2 hp2 hf2
        refine ⟨z1, ?_, hin1.trans hin, hc1, hn1, hp1, hend, ?_⟩
        · simp [insertFixupLoop, hred, hz2, hz1]
        · intro n h1 h2
          obtain ⟨k, hk1, hk2⟩ := hbal n h1 h2
          exact hbal1 k hk1 hk2
      · refine ⟨⟨t, p :: rest⟩, ?_, rfl, ht, hn, hp, Or.inr (color_ne_red.1 hred),
          fun n h1 h2 => ⟨n, h1, h2⟩⟩
        simp [insertFixupLoop, hred]

/-- C1 (the code breaks the claim): the tree built by inserting 1, 2, 3, 4
satisfies all red-black invariants, and `deleteNode(1)` splices out a BLACK
node whose replacement is absent, skips `deleteFixup`, and returns a tree in
which the paths below the root pass through different numbers of BLACK
nodes. -/
theorem deleteNode_black_leaf_breaks_blackHeight :
    runOps .nil [.insert 1, .insert 2, .insert 3, .insert 4] =
        some (.node 2 .BLACK (.node 1 .BLACK .nil .nil)
          (.node 3 .BLACK .nil (.node 4 .RED .nil .nil))) ∧
      RBInv (.node 2 .BLACK (.node 1 .BLACK .nil .nil)
        (.node 3 .BLACK .nil (.node 4 .RED .nil .nil))) ∧
      deleteNode (.node 2 .BLACK (.node 1 .BLACK .nil .nil)
          (.node 3 .BLACK .nil (.node 4 .RED .nil .nil))) 1 =
        some (.node 2 .BLACK .nil (.node 3 .BLACK .nil (.node 4 .RED .nil .nil))) ∧
      blackHeight (.node 2 .BLACK .nil (.node 3 .BLACK .nil (.node 4 .RED .nil .nil))) = none ∧
      ¬ RBInv (.node 2 .BLACK .nil (.node 3 .BLACK .nil (.node 4 .RED .nil .nil))) := by
  decide

/-- C9 (the code breaks the claim): a sequence of fourteen calls after which
the tree has 6 nodes and height 6, so that `2 ^ h = 64` exceeds
`(n + 1) ^ 2 = 49`. -/
theorem height_bound_fails_after_deletions :
    ∃ t, runOps .nil [.insert 6, .insert 5, .insert 4, .insert 3, .insert 2, .deleteNode 5,
        .insert 8, .insert 7, .insert 1, .deleteNode 3, .deleteNode 7, .insert 10, .insert 9,
        .deleteNode 9] = some t ∧
      size t = 6 ∧ height t = 6 ∧ ¬ (2 ^ height t ≤ (size t + 1) ^ 2) :=
  ⟨.node 10 .BLACK (.node 8 .RED (.node 6 .BLACK (.node 4 .RED
      (.node 2 .BLACK (.node 1 .RED .nil .nil) .nil) .nil) .nil) .nil) .nil,
    by decide, by decide, by decide, by decide⟩

/-- C10: for `a < b < c`, inserting `a`, `b`, `c` in that order into the empty
tree gives exactly the tree with BLACK root `b`, RED left leaf `a` and RED
right leaf `c`. -/
theorem insert_three_ascending (a b c : Int) (hab : a < b) (hbc : b < c) :
    runOps .nil [.insert a, .insert b, .insert c] =
      some (.node b .BLACK (.node a .RED .nil .nil) (.node c .RED .nil .nil)) := by
  have h1 : ¬ b < a := by omega
  have h2 : ¬ c < a := by omega
  have h3 : ¬ c < b := by omega
  simp [runOps, Op.apply, insert, insertDescend, insertFixup, insertFixupLoop, insertFixupBody,
    insertFixupOuterR, leftRotateGrandparent, leftRotate, Loc.up, Loc.right, Frame.fill, h1, h2, h3,
    getColor]

theorem insert_three_ascending_witness :
    runOps .nil [.insert 10, .insert 20, .insert 30] =
      some (.node 20 .BLACK (.node 10 .RED .nil .nil) (.node 30 .RED .nil .nil)) :=
  insert_three_ascending 10 20 30 (by decide) (by decide)

/-- C11: after inserting 10, 20, 30, 40, 50 and deleting 20, `search(20)`
finds nothing, `search` finds a node with the searched value for 10, 30, 40
and 50, and the tree satisfies the red-black invariants. -/
theorem scenario_insert_five_delete_20 :
    ∃ t, runOps .nil [.insert 10, .insert 20, .insert 30, .insert 40, .insert 50,
        .deleteNode 20] = some t ∧
      search t 20 = none ∧
      dataOf (search t 10) = some 10 ∧ dataOf (search t 30) = some 30 ∧
      dataOf (search t 40) = some 40 ∧ dataOf (search t 50) = some 50 ∧
      RBInv t :=
  ⟨.node 30 .BLACK (.node 10 .BLACK .nil .nil) (.node 40 .BLACK .nil (.node 50 .RED .nil .nil)),
    by decide, by decide, by decide, by decide, by decide, by decide, by decide⟩

theorem plug_node (p : Path) (d : Int) (c : Color) (l r : Tree) :
    ∃ d1 c1 l1 r1, plug (.node d c l r) p = .node d1 c1 l1 r1 := by
  induction p generalizing d c l r with
  | nil => exact ⟨d, c, l, r, rfl⟩
  | cons f rest ih =>
    obtain ⟨s, fd, fc, sib⟩ := f
    cases s
    · exact ih fd fc _ sib
    · exact ih fd fc sib _

theorem plug_insertDescend (v : Int) (t : Tree) (p : Path) :
    plug .nil (insertDescend v t p) = plug t p := by
  induction t generalizing p with
  | nil => rfl
  | node d c l r ihl ihr =>
    unfold insertDescend
    split
    · rw [ihl]; rfl
    · rw [ihr]; rfl

/-- The descent of `insert` in a sorted tree stops where everything before is
at most the new value and everything after is greater. -/
theorem insertDescend_bounds (v : Int) (t : Tree) (p : Path)
    (hs : (inorder t).Sorted (· ≤ ·))
    (hb : ∀ x ∈ pathBefore p, x ≤ v) (ha : ∀ x ∈ pathAfter p, v < x) :
    (∀ x ∈ pathBefore (insertDescend v t p), x ≤ v) ∧
      (∀ x ∈ pathAfter (insertDescend v t p), v < x) := by
  induction t generalizing p with
  | nil => exact ⟨hb, ha⟩
  | node d c l r ihl ihr =>
    simp only [inorder, List.Sorted, List.pairwise_append, List.pairwise_cons,
      List.mem_cons] at hs
    obtain ⟨hsl, ⟨hdr, hsr⟩, hlr⟩ := hs
    unfold insertDescend
    split
    · rename_i hlt
      apply ihl _ hsl
      · simpa [pathBefore] using hb
      · intro x hx
        simp only [pathAfter, List.mem_cons, List.mem_append] at hx
        rcases hx with (rfl | hx) | hx
        · exact hlt
        · exact lt_of_lt_of_le hlt (hdr x hx)
        · exact ha x hx
    · rename_i hge
      apply ihr _ hsr
      · intro x hx
        simp only [pathBefore, List.mem_append, List.mem_singleton] at hx
        rcases hx with hx | hx | rfl
        · exact hb x hx
        · exact le_trans (hlr x hx d (Or.inl rfl)) (not_lt.1 hge)
        · exact not_lt.1 hge
      · simpa [pathAfter] using ha

theorem blackHeight_recolor {d : Int} {c c1 : Color} {l r : Tree} {m : Nat}
    (h : blackHeight (.node d c l r) = some m) :
    ∃ k, blackHeight (.node d c1 l r) = some k := by
  obtain ⟨n, hl, hr, -⟩ := blackHeight_node.1 h
  exact ⟨_, blackHeight_node.2 ⟨n, hl, hr, rfl⟩⟩

/-- `insert` on a tree with BLACK root and without red-red conflict returns a
tree with the same two properties whose in-order sequence is the old one with
the new value at the place where the descent stopped; a balanced tree stays
balanced. -/
theorem insert_spec (t : Tree) (v : Int) (hr : rootBlack t = true) (hn : noRedRed t = true) :
    ∃ t1, insert t v = some t1 ∧ rootBlack t1 = true ∧ noRedRed t1 = true ∧
      inorder t1 = pathBefore (insertDescend v t []) ++ v :: pathAfter (insertDescend v t []) ∧
      (∀ m, blackHeight t = some m → ∃ k, blackHeight t1 = some k) := by
  have hplug : plug .nil (insertDescend v t []) = t := by rw [plug_insertDescend]; rfl
  have hr1 : getColor t = .BLACK := by simpa [rootBlack] using hr
  obtain ⟨hq, -, -⟩ := pathOK_of_plug (p := insertDescend v t []) (t := .nil)
    (by rw [hplug]; exact hn) (by rw [hplug]; exact hr1)
  obtain ⟨z1, hz1, hin, hc1, hn1, hp1, hend, hbal⟩ :=
    insertFixupLoop_spec ((insertDescend v t []).length + 1)
      ⟨.node v .RED .nil .nil, insertDescend v t []⟩ rfl rfl hq (Or.inl le_rfl)
  obtain ⟨zd, zl, zr, hzsub⟩ := getColor_red_node hc1
  obtain ⟨d1, c1, l1, r1, hnode⟩ := plug_node z1.path zd .RED zl zr
  rw [← hzsub] at hnode
  have hnrr : noRedRed (.node d1 .BLACK l1 r1) = true := by
    have h0 : noRedRed (setColor .BLACK (plug z1.sub z1.path)) = true := by
      apply noRedRed_setColor_black
      rcases hend with h | h
      · rw [h]; exact hn1
      · exact noRedRed_plug hp1 hn1 (Or.inr h)
    simpa [hnode, setColor] using h0
  refine ⟨.node d1 .BLACK l1 r1, ?_, rfl, hnrr, ?_, ?_⟩
  · have hz2 : insertFixupLoop ((insertDescend v t []).length + 1)
        ⟨.node v .RED .nil .nil, insertDescend v t []⟩ = some z1 := hz1
    simp only [insert, insertFixup, hz2, hnode]
  · have h2 : inorder (.node d1 .BLACK l1 r1) = inorder (plug z1.sub z1.path) := by
      rw [hnode]; rfl
    rw [h2, hin, inorder_plug]
    simp [inorder]
  · intro m hm
    rw [← hplug] at hm
    obtain ⟨n, hn0, hpb⟩ := pathBal_of_plug hm
    have hn00 : n = 0 := by simpa [blackHeight] using hn0.symm
    subst hn00
    obtain ⟨k, hk, hpk⟩ := hbal 0 rfl hpb
    obtain ⟨j, hj⟩ := blackHeight_plug hpk hk
    rw [hnode] at hj
    exact blackHeight_recolor hj

theorem sorted_insert_between {pre post : List Int} {v : Int}
    (hs : (pre ++ post).Sorted (· ≤ ·)) (hb : ∀ x ∈ pre, x ≤ v) (ha : ∀ x ∈ post, v < x) :
    (pre ++ v :: post).Sorted (· ≤ ·) := by
  simp only [List.Sorted, List.pairwise_append, List.pairwise_cons, List.mem_cons] at hs ⊢
  obtain ⟨h1, h2, h3⟩ := hs
  refine ⟨h1, ⟨fun x hx => le_of_lt (ha x hx), h2⟩, ?_⟩
  rintro a ha1 b (rfl | hb1)
  · exact hb a ha1
  · exact h3 a ha1 b hb1

/-- `insert` on a tree satisfying invariants 2, 3 and 5: it returns a tree
satisfying them, the new value sits between the values at most equal to it and
the greater ones, and a balanced tree stays balanced. -/
theorem insert_good (t : Tree) (v : Int) (h : Good t) :
    ∃ t1, insert t v = some t1 ∧ Good t1 ∧
      (∃ pre post, inorder t = pre ++ post ∧ inorder t1 = pre ++ v :: post ∧
        (∀ x ∈ pre, x ≤ v) ∧ (∀ x ∈ post, v < x)) ∧
      (∀ m, blackHeight t = some m → ∃ k, blackHeight t1 = some k) := by
  obtain ⟨hr, hn, ho⟩ := h
  obtain ⟨t1, h1, hr1, hn1, hin, hbal⟩ := insert_spec t v hr hn
  have hdec : inorder t = pathBefore (insertDescend v t []) ++ pathAfter (insertDescend v t []) := by
    have := inorder_plug .nil (insertDescend v t [])
    rw [plug_insertDescend] at this
    simpa [inorder] using this
  obtain ⟨hb, ha⟩ := insertDescend_bounds v t [] ho (by simp [pathBefore]) (by simp [pathAfter])
  refine ⟨t1, h1, ⟨hr1, hn1, ?_⟩, ⟨_, _, hdec, hin, hb, ha⟩, hbal⟩
  unfold ordered at ho ⊢
  rw [hin]
  rw [hdec] at ho
  exact sorted_insert_between ho hb ha

/-- C2: on every tree that satisfies the red-black invariants (BLACK root, no
RED node with a RED child, equal BLACK count on all paths, non-decreasing
in-order traversal), `insert(v)` returns a tree that satisfies them again. -/
theorem insert_preserves_RBInv (t : Tree) (v : Int) (h : RBInv t) :
    ∃ t1, insert t v = some t1 ∧ RBInv t1 := by
  obtain ⟨hr, hn, hb, ho⟩ := h
  obtain ⟨t1, h1, ⟨hr1, hn1, ho1⟩, -, hbal⟩ := insert_good t v ⟨hr, hn, ho⟩
  obtain ⟨m, hm⟩ := Option.isSome_iff_exists.1 hb
  obtain ⟨k, hk⟩ := hbal m hm
  exact ⟨t1, h1, hr1, hn1, by simp [hk], ho1⟩

theorem insert_preserves_RBInv_witness :
    RBInv (.node 20 .BLACK (.node 10 .RED .nil .nil) (.node 30 .RED .nil .nil)) ∧
      ∃ t1, insert (.node 20 .BLACK (.node 10 .RED .nil .nil) (.node 30 .RED .nil .nil)) 40
        = some t1 ∧ RBInv t1 :=
  ⟨by decide, insert_preserves_RBInv _ 40 (by decide)⟩

theorem searchFrom_none (v : Int) (t : Tree) (p : Path) (h : v ∉ inorder t) :
    searchFrom v t p = none := by
  induction t generalizing p with
  | nil => rfl
  | node d c l r ihl ihr =>
    simp only [inorder, List.mem_append, List.mem_cons, not_or] at h
    obtain ⟨hl, hd, hr⟩ := h
    simp only [searchFrom, hd, if_false]
    split
    · exact ihl _ hl
    · exact ihr _ hr

theorem searchFrom_some (v : Int) (t : Tree) (p : Path) (z : Loc)
    (h : searchFrom v t p = some z) :
    (∃ c l r, z.sub = .node v c l r) ∧ plug z.sub z.path = plug t p := by
  induction t generalizing p with
  | nil => simp [searchFrom] at h
  | node d c l r ihl ihr =>
    simp only [searchFrom] at h
    split at h
    · rename_i heq
      cases h
      exact ⟨⟨c, l, r, by rw [heq]⟩, rfl⟩
    · split at h
      · obtain ⟨h1, h2⟩ := ihl _ h
        exact ⟨h1, h2⟩
      · obtain ⟨h1, h2⟩ := ihr _ h
        exact ⟨h1, h2⟩

theorem searchFrom_found (v : Int) (t : Tree) (p : Path) (hs : (inorder t).Sorted (· ≤ ·))
    (hm : v ∈ inorder t) : ∃ z, searchFrom v t p = some z := by
  induction t generalizing p with
  | nil => simp [inorder] at hm
  | node d c l r ihl ihr =>
    simp only [inorder, List.Sorted, List.pairwise_append, List.pairwise_cons,
      List.mem_cons] at hs
    obtain ⟨hsl, ⟨hdr, hsr⟩, hlr⟩ := hs
    simp only [inorder, List.mem_append, List.mem_cons] at hm
    simp only [searchFrom]
    split
    · exact ⟨_, rfl⟩
    · rename_i hne
      split
      · rename_i hlt
        rcases hm with hm | rfl | hm
        · exact ihl _ hsl hm
        · exact absurd rfl hne
        · exact absurd (hdr v hm) (not_le.2 hlt)
      · rename_i hge
        rcases hm with hm | rfl | hm
        · have h1 : v ≤ d := hlr v hm d (Or.inl rfl)
          have h2 : d ≤ v := not_lt.1 hge
          exact absurd (le_antisymm h1 h2) hne
        · exact absurd rfl hne
        · exact ihr _ hsr hm

/-- On a tree with non-decreasing in-order traversal, `search(v)` finds a node
exactly when `v` is stored, and a node it finds stores `v`. -/
theorem search_ordered (t : Tree) (v : Int) (ho : ordered t) :
    ((∃ z, search t v = some z) ↔ v ∈ inorder t) ∧
      (search t v = none ↔ v ∉ inorder t) ∧
      (∀ z, search t v = some z → dataOf (some z) = some v) := by
  have h1 : (∃ z, search t v = some z) ↔ v ∈ inorder t := by
    constructor
    · rintro ⟨z, hz⟩
      by_contra hn
      rw [search, searchFrom_none v t [] hn] at hz
      cases hz
    · exact searchFrom_found v t [] ho
  refine ⟨h1, ?_, ?_⟩
  · rw [← h1]
    cases search t v <;> simp
  · intro z hz
    obtain ⟨⟨c, l, r, hsub⟩, -⟩ := searchFrom_some v t [] z hz
    obtain ⟨sub, path⟩ := z
    simp only at hsub
    subst hsub
    rfl

/-- C8: on every tree, `deleteNode(v)` for a value `v` that no node stores
returns the tree unchanged (same shape, data and colours). -/
theorem deleteNode_absent_noop (t : Tree) (v : Int) (h : v ∉ inorder t) :
    deleteNode t v = some t := by
  simp [deleteNode, search, searchFrom_none v t [] h]

theorem deleteNode_absent_noop_witness :
    deleteNode (.node 20 .BLACK (.node 10 .RED .nil .nil) (.node 30 .RED .nil .nil)) 25 =
      some (.node 20 .BLACK (.node 10 .RED .nil .nil) (.node 30 .RED .nil .nil)) :=
  deleteNode_absent_noop _ 25 (by decide)

theorem nodes_plug_congr {t t1 : Tree} (p : Path) (h : nodes t = nodes t1) :
    nodes (plug t p) = nodes (plug t1 p) := by
  induction p generalizing t t1 with
  | nil => exact h
  | cons f rest ih =>
    obtain ⟨s, d, c, sib⟩ := f
    cases s <;> exact ih (by simp [Frame.fill, nodes, h])

/-- C17: `leftRotate(x)` on a node whose right child is present and
`rightRotate(x)` on a node whose left child is present succeed and leave the
in-order sequence of the nodes of the whole tree, with their data and colours,
unchanged. -/
theorem rotations_preserve_nodes :
    (∀ (d dy : Int) (c cy : Color) (a b e : Tree) (p : Path),
      ∃ z, leftRotate ⟨.node d c a (.node dy cy b e), p⟩ = some z ∧
        nodes (plug z.sub z.path) = nodes (plug (.node d c a (.node dy cy b e)) p) ∧
        inorder (plug z.sub z.path) = inorder (plug (.node d c a (.node dy cy b e)) p)) ∧
    (∀ (d dy : Int) (c cy : Color) (a b e : Tree) (p : Path),
      ∃ z, rightRotate ⟨.node d c (.node dy cy a b) e, p⟩ = some z ∧
        nodes (plug z.sub z.path) = nodes (plug (.node d c (.node dy cy a b) e) p) ∧
        inorder (plug z.sub z.path) = inorder (plug (.node d c (.node dy cy a b) e) p)) := by
  constructor
  · intro d dy c cy a b e p
    refine ⟨_, rfl, ?_, ?_⟩
    · exact nodes_plug_congr p (by simp [Frame.fill, nodes])
    · simp [inorder_plug, Frame.fill, inorder]
  · intro d dy c cy a b e p
    refine ⟨_, rfl, ?_, ?_⟩
    · exact nodes_plug_congr p (by simp [Frame.fill, nodes])
    · simp [inorder_plug, Frame.fill, inorder]

/-- C12 (as stated, refuted): after inserting 5 three times the root 5 has a
left child that also stores 5, so the values of a left subtree are not all
strictly smaller. -/
theorem duplicates_left_counterexample :
    ∃ t, runOps .nil [.insert 5, .insert 5, .insert 5] = some t ∧
      t = .node 5 .BLACK (.node 5 .RED .nil .nil) (.node 5 .RED .nil .nil) ∧ ¬ bstStrict t :=
  ⟨_, by decide, rfl, by simp [bstStrict, allValues]⟩

theorem deleteFixupLeftCase1_red (t : Tree) (pd wd : Int) (pc : Color) (wl wr : Tree)
    (rest : Path) :
    deleteFixupLeftCase1 ⟨t, ⟨.L, pd, pc, .node wd .RED wl wr⟩ :: rest⟩ =
      some ⟨t, ⟨.L, pd, .RED, wl⟩ :: ⟨.L, wd, .BLACK, wr⟩ :: rest⟩ := by
  simp [deleteFixupLeftCase1, leftRotateParent, leftRotate, Loc.up, Loc.left, Frame.fill]

theorem deleteFixupLeftCase1_black (t : Tree) (p : Frame) (rest : Path)
    (h : getColor p.sibling = .BLACK) :
    deleteFixupLeftCase1 ⟨t, p :: rest⟩ = some ⟨t, p :: rest⟩ := by
  obtain ⟨s, pd, pc, w⟩ := p
  cases w with
  | nil => rfl
  | node wd wc wl wr =>
    simp only [getColor] at h
    subst h
    rfl

theorem deleteFixupLeftCase34_inner (t : Tree) (pd wd ld : Int) (pc wc lc : Color)
    (la lb wr : Tree) (rest : Path) (h : getColor wr = .BLACK) :
    deleteFixupLeftCase34 ⟨t, ⟨.L, pd, pc, .node wd wc (.node ld lc la lb) wr⟩ :: rest⟩ =
      some ⟨plug (.node ld pc (.node pd .BLACK t la) (.node wd .BLACK lb wr)) rest, []⟩ := by
  simp [deleteFixupLeftCase34, h, rightRotateSibling, leftRotateParent, leftRotate, rightRotate,
    Loc.up, Loc.left, Loc.right, Loc.down, Loc.toRoot, Side.other, Frame.fill, setColor]

theorem deleteFixupLeftCase34_outer (t : Tree) (pd wd : Int) (pc wc : Color)
    (wl wr : Tree) (rest : Path) (h : getColor wr = .RED) :
    deleteFixupLeftCase34 ⟨t, ⟨.L, pd, pc, .node wd wc wl wr⟩ :: rest⟩ =
      some ⟨plug (.node wd pc (.node pd .BLACK t wl) (setColor .BLACK wr)) rest, []⟩ := by
  simp [deleteFixupLeftCase34, h, leftRotateParent, leftRotate,
    Loc.up, Loc.left, Loc.toRoot, Frame.fill]

theorem deleteFixupRightCase1_red (t : Tree) (pd wd : Int) (pc : Color) (wl wr : Tree)
    (rest : Path) :
    deleteFixupRightCase1 ⟨t, ⟨.R, pd, pc, .node wd .RED wl wr⟩ :: rest⟩ =
      some ⟨t, ⟨.R, pd, .RED, wr⟩ :: ⟨.R, wd, .BLACK, wl⟩ :: rest⟩ := by
  simp [deleteFixupRightCase1, rightRotateParent, rightRotate, Loc.up, Loc.right, Frame.fill]

theorem deleteFixupRightCase1_black (t : Tree) (p : Frame) (rest : Path)
    (h : getColor p.sibling = .BLACK) :
    deleteFixupRightCase1 ⟨t, p :: rest⟩ = some ⟨t, p :: rest⟩ := by
  obtain ⟨s, pd, pc, w⟩ := p
  cases w with
  | nil => rfl
  | node wd wc wl wr =>
    simp only [getColor] at h
    subst h
    rfl

theorem deleteFixupRightCase34_inner (t : Tree) (pd wd rd : Int) (pc wc rc : Color)
    (wl ra rb : Tree) (rest : Path) (h : getColor wl = .BLACK) :
    deleteFixupRightCase34 ⟨t, ⟨.R, pd, pc, .node wd wc wl (.node rd rc ra rb)⟩ :: rest⟩ =
      some ⟨plug (.node rd pc (.node wd .BLACK wl ra) (.node pd .BLACK rb t)) rest, []⟩ := by
  simp [deleteFixupRightCase34, h, leftRotateSibling, rightRotateParent, leftRotate, rightRotate,
    Loc.up, Loc.left, Loc.right, Loc.down, Loc.toRoot, Side.other, Frame.fill, setColor]

theorem deleteFixupRightCase34_outer (t : Tree) (pd wd : Int) (pc wc : Color)
    (wl wr : Tree) (rest : Path) (h : getColor wl = .RED) :
    deleteFixupRightCase34 ⟨t, ⟨.R, pd, pc, .node wd wc wl wr⟩ :: rest⟩ =
      some ⟨plug (.node wd pc (setColor .BLACK wl) (.node pd .BLACK wr t)) rest, []⟩ := by
  simp [deleteFixupRightCase34, h, rightRotateParent, rightRotate,
    Loc.up, Loc.right, Loc.toRoot, Frame.fill]

theorem pathOK_cons_iff {f : Frame} {rest : Path} :
    pathOK (f :: rest) ↔
      noRedRed f.sibling = true ∧
        (f.color = .RED → getColor f.sibling = .BLACK ∧ headBlack rest) ∧ pathOK rest :=
  Iff.rfl

theorem noRedRed_plug_root {p : Path} {t : Tree} (hp : pathOK p) (ht : noRedRed t = true)
    (hc : getColor t = .RED → headBlack p) :
    noRedRed (setColor .BLACK (plug t p)) = true := by
  apply noRedRed_setColor_black
  apply noRedRed_plug hp ht
  by_cases h : getColor t = .RED
  · exact Or.inr (hc h)
  · exact Or.inl (color_ne_red.1 h)

/-- The part of the loop body of `deleteFixup` after the first case, for a
left child whose sibling is absent or BLACK: it succeeds, keeps the in-order
sequence and either moves to the parent or ends at the root. -/
theorem deleteFixupLeftRest_step {t : Tree} {pd : Int} {pc : Color} {w : Tree} {rest : Path}
    (ht : noRedRed t = true) (hw : getColor w = .BLACK)
    (hp : pathOK (⟨.L, pd, pc, w⟩ :: rest)) :
    ∃ x, deleteFixupLeftRest ⟨t, ⟨.L, pd, pc, w⟩ :: rest⟩ = some x ∧
      inorder (plug x.sub x.path) = inorder (plug t (⟨.L, pd, pc, w⟩ :: rest)) ∧
      noRedRed (setColor .BLACK x.sub) = true ∧ pathOK x.path ∧
      ((x.path = rest ∧ getColor x.sub = pc ∧ x.sub ≠ .nil) ∨ x.path = []) := by
  obtain ⟨hws, hpc, hrest⟩ := hp
  simp only at hws hpc
  cases w with
  | nil =>
    refine ⟨⟨.node pd pc t .nil, rest⟩, rfl, rfl, ?_, hrest, Or.inl ⟨rfl, rfl, by simp⟩⟩
    simp [setColor, noRedRed_node, ht, noRedRed]
  | node wd wc wl wr =>
    simp only [getColor] at hw
    subst hw
    obtain ⟨-, hwl, hwr⟩ := noRedRed_node.1 hws
    by_cases hbb : getColor wl = .BLACK ∧ getColor wr = .BLACK
    · refine ⟨⟨.node pd pc t (.node wd .RED wl wr), rest⟩, ?_, ?_, ?_, hrest,
        Or.inl ⟨rfl, rfl, by simp⟩⟩
      · simp [deleteFixupLeftRest, hbb, Loc.up, Frame.fill]
      · simp [inorder_plug, Frame.fill, inorder]
      · simp [setColor, noRedRed_node, ht, hwl, hwr, hbb]
    · have hrest34 : deleteFixupLeftRest ⟨t, ⟨.L, pd, pc, .node wd .BLACK wl wr⟩ :: rest⟩ =
          deleteFixupLeftCase34 ⟨t, ⟨.L, pd, pc, .node wd .BLACK wl wr⟩ :: rest⟩ := by
        simp [deleteFixupLeftRest, hbb]
      rw [hrest34]
      by_cases hr : getColor wr = .BLACK
      · have hl : getColor wl = .RED := by
          apply color_ne_black.1
          intro h; exact hbb ⟨h, hr⟩
        obtain ⟨ld, la, lb, rfl⟩ := getColor_red_node hl
        obtain ⟨-, hla, hlb⟩ := noRedRed_node.1 hwl
        refine ⟨_, deleteFixupLeftCase34_inner _ _ _ _ _ _ _ _ _ _ _ hr, ?_, ?_, trivial,
          Or.inr rfl⟩
        · simp [inorder_plug, Frame.fill, inorder]
        · apply noRedRed_plug_root hrest
          · simp [noRedRed_node, ht, hla, hlb, hwr, getColor]
          · intro h
            simp only [getColor] at h
            exact (hpc h).2
      · have hr1 := color_ne_black.1 hr
        refine ⟨_, deleteFixupLeftCase34_outer _ _ _ _ _ _ _ _ hr1, ?_, ?_, trivial, Or.inr rfl⟩
        · simp [inorder_plug, Frame.fill, inorder]
        · apply noRedRed_plug_root hrest
          · obtain ⟨rd, ra, rb, rfl⟩ := getColor_red_node hr1
            obtain ⟨-, hra, hrb⟩ := noRedRed_node.1 hwr
            simp [noRedRed_node, ht, hwl, hra, hrb, getColor, setColor]
          · intro h
            simp only [getColor] at h
            exact (hpc h).2

/-- The mirror image of `deleteFixupLeftRest_step` for a right child. -/
theorem deleteFixupRightRest_step {t : Tree} {pd : Int} {pc : Color} {w : Tree} {rest : Path}
    (ht : noRedRed t = true) (hw : getColor w = .BLACK)
    (hp : pathOK (⟨.R, pd, pc, w⟩ :: rest)) :
    ∃ x, deleteFixupRightRest ⟨t, ⟨.R, pd, pc, w⟩ :: rest⟩ = some x ∧
      inorder (plug x.sub x.path) = inorder (plug t (⟨.R, pd, pc, w⟩ :: rest)) ∧
      noRedRed (setColor .BLACK x.sub) = true ∧ pathOK x.path ∧
      ((x.path = rest ∧ getColor x.sub = pc ∧ x.sub ≠ .nil) ∨ x.path = []) := by
  obtain ⟨hws, hpc, hrest⟩ := hp
  simp only at hws hpc
  cases w with
  | nil =>
    refine ⟨⟨.node pd pc .nil t, rest⟩, rfl, rfl, ?_, hrest, Or.inl ⟨rfl, rfl, by simp⟩⟩
    simp [setColor, noRedRed_node, ht, noRedRed]
  | node wd wc wl wr =>
    simp only [getColor] at hw
    subst hw
    obtain ⟨-, hwl, hwr⟩ := noRedRed_node.1 hws
    by_cases hbb : getColor wr = .BLACK ∧ getColor wl = .BLACK
    · refine ⟨⟨.node pd pc (.node wd .RED wl wr) t, rest⟩, ?_, ?_, ?_, hrest,
        Or.inl ⟨rfl, rfl, by simp⟩⟩
      · simp [deleteFixupRightRest, hbb, Loc.up, Frame.fill]
      · simp [inorder_plug, Frame.fill, inorder]
      · simp [setColor, noRedRed_node, ht, hwl, hwr, hbb]
    · have hrest34 : deleteFixupRightRest ⟨t, ⟨.R, pd, pc, .node wd .BLACK wl wr⟩ :: rest⟩ =
          deleteFixupRightCase34 ⟨t, ⟨.R, pd, pc, .node wd .BLACK wl wr⟩ :: rest⟩ := by
        simp [deleteFixupRightRest, hbb]
      rw [hrest34]
      by_cases hl : getColor wl = .BLACK
      · have hr : getColor wr = .RED := by
          apply color_ne_black.1
          intro h; exact hbb ⟨h, hl⟩
        obtain ⟨rd, ra, rb, rfl⟩ := getColor_red_node hr
        obtain ⟨-, hra, hrb⟩ := noRedRed_node.1 hwr
        refine ⟨_, deleteFixupRightCase34_inner _ _ _ _ _ _ _ _ _ _ _ hl, ?_, ?_, trivial,
          Or.inr rfl⟩
        · simp [inorder_plug, Frame.fill, inorder]
        · apply noRedRed_plug_root hrest
          · simp [noRedRed_node, ht, hra, hrb, hwl, getColor]
          · intro h
            simp only [getColor] at h
            exact (hpc h).2
      · have hl1 := color_ne_black.1 hl
        refine ⟨_, deleteFixupRightCase34_outer _ _ _ _ _ _ _ _ hl1, ?_, ?_, trivial, Or.inr rfl⟩
        · simp [inorder_plug, Frame.fill, inorder]
        · apply noRedRed_plug_root hrest
          · obtain ⟨ld, la, lb, rfl⟩ := getColor_red_node hl1
            obtain ⟨-, hla, hlb⟩ := noRedRed_node.1 hwl
            simp [noRedRed_node, ht, hwr, hla, hlb, getColor, setColor]
          · intro h
            simp only [getColor] at h
            exact (hpc h).2

/-- One pass through the loop body of `deleteFixup` for a left child: it
succeeds, keeps the in-order sequence and the well-formedness of the
ancestors, and ends one level higher, at the root, or at a RED node. -/
theorem deleteFixupLeft_step {t : Tree} {pd : Int} {pc : Color} {w : Tree} {rest : Path}
    (ht : noRedRed t = true) (hp : pathOK (⟨.L, pd, pc, w⟩ :: rest)) :
    ∃ x, deleteFixupLeft ⟨t, ⟨.L, pd, pc, w⟩ :: rest⟩ = some x ∧
      inorder (plug x.sub x.path) = inorder (plug t (⟨.L, pd, pc, w⟩ :: rest)) ∧
      noRedRed (setColor .BLACK x.sub) = true ∧ pathOK x.path ∧
      (x.path.length = rest.length ∨ x.path = [] ∨ getColor x.sub = .RED) := by
  have hp0 := hp
  obtain ⟨hws, hpc, hrest⟩ := hp
  simp only at hws hpc
  cases w with
  | nil =>
    refine ⟨⟨.node pd pc t .nil, rest⟩, rfl, rfl, ?_, hrest, Or.inl rfl⟩
    simp [setColor, noRedRed_node, ht, noRedRed]
  | node wd wc wl wr =>
    cases wc with
    | RED =>
      obtain ⟨hwc, hwl, hwr⟩ := noRedRed_node.1 hws
      obtain ⟨hwlb, hwrb⟩ := hwc rfl
      have hp1 : pathOK (⟨.L, pd, .RED, wl⟩ :: ⟨.L, wd, .BLACK, wr⟩ :: rest) :=
        by
        refine ⟨hwl, fun _ => ⟨hwlb, rfl⟩, hwr, ?_, hrest⟩
        intro h; cases h
      obtain ⟨x, hx, hin, hn, hpx, hend⟩ := deleteFixupLeftRest_step ht hwlb hp1
      refine ⟨x, ?_, ?_, hn, hpx, ?_⟩
      · simp [deleteFixupLeft, deleteFixupLeftCase1_red, hx]
      · rw [hin]; simp [inorder_plug, Frame.fill, inorder]
      · rcases hend with ⟨-, h, -⟩ | h
        · exact Or.inr (Or.inr h)
        · exact Or.inr (Or.inl h)
    | BLACK =>
      obtain ⟨x, hx, hin, hn, hpx, hend⟩ := deleteFixupLeftRest_step (w := .node wd .BLACK wl wr) ht rfl hp0
      refine ⟨x, ?_, hin, hn, hpx, ?_⟩
      · simp [deleteFixupLeft, deleteFixupLeftCase1_black, getColor, hx]
      · rcases hend with ⟨h, -, -⟩ | h
        · exact Or.inl (by rw [h])
        · exact Or.inr (Or.inl h)

/-- The mirror image of `deleteFixupLeft_step` for a right child. -/
theorem deleteFixupRight_step {t : Tree} {pd : Int} {pc : Color} {w : Tree} {rest : Path}
    (ht : noRedRed t = true) (hp : pathOK (⟨.R, pd, pc, w⟩ :: rest)) :
    ∃ x, deleteFixupRight ⟨t, ⟨.R, pd, pc, w⟩ :: rest⟩ = some x ∧
      inorder (plug x.sub x.path) = inorder (plug t (⟨.R, pd, pc, w⟩ :: rest)) ∧
      noRedRed (setColor .BLACK x.sub) = true ∧ pathOK x.path ∧
      (x.path.length = rest.length ∨ x.path = [] ∨ getColor x.sub = .RED) := by
  have hp0 := hp
  obtain ⟨hws, hpc, hrest⟩ := hp
  simp only at hws hpc
  cases w with
  | nil =>
    refine ⟨⟨.node pd pc .nil t, rest⟩, rfl, rfl, ?_, hrest, Or.inl rfl⟩
    simp [setColor, noRedRed_node, ht, noRedRed]
  | node wd wc wl wr =>
    cases wc with
    | RED =>
      obtain ⟨hwc, hwl, hwr⟩ := noRedRed_node.1 hws
      obtain ⟨hwlb, hwrb⟩ := hwc rfl
      have hp1 : pathOK (⟨.R, pd, .RED, wr⟩ :: ⟨.R, wd, .BLACK, wl⟩ :: rest) :=
        by
        refine ⟨hwr, fun _ => ⟨hwrb, rfl⟩, hwl, ?_, hrest⟩
        intro h; cases h
      obtain ⟨x, hx, hin, hn, hpx, hend⟩ := deleteFixupRightRest_step ht hwrb hp1
      refine ⟨x, ?_, ?_, hn, hpx, ?_⟩
      · simp [deleteFixupRight, deleteFixupRightCase1_red, hx]
      · rw [hin]; simp [inorder_plug, Frame.fill, inorder]
      · rcases hend with ⟨-, h, -⟩ | h
        · exact Or.inr (Or.inr h)
        · exact Or.inr (Or.inl h)
    | BLACK =>
      obtain ⟨x, hx, hin, hn, hpx, hend⟩ := deleteFixupRightRest_step (w := .node wd .BLACK wl wr) ht rfl hp0
      refine ⟨x, ?_, hin, hn, hpx, ?_⟩
      · simp [deleteFixupRight, deleteFixupRightCase1_black, getColor, hx]
      · rcases hend with ⟨h, -, -⟩ | h
        · exact Or.inl (by rw [h])
        · exact Or.inr (Or.inl h)

theorem getColor_setColor_black (t : Tree) : getColor (setColor .BLACK t) = .BLACK := by
  cases t <;> rfl

theorem setColor_black_of_black {t : Tree} (h : getColor t = .BLACK) :
    setColor .BLACK t = t := by
  cases t with
  | nil => rfl
  | node d c l r => simp only [getColor] at h; subst h; rfl

/-- With enough fuel the loop of `deleteFixup` returns; it keeps the in-order
sequence and the well-formedness of the ancestors, and the subtree it ends at
has no red-red conflict below its root. -/
theorem deleteFixupLoop_spec (fuel : Nat) (x : Loc)
    (hn : noRedRed (setColor .BLACK x.sub) = true) (hp : pathOK x.path)
    (hfuel : x.path.length + 1 ≤ fuel ∨
      (0 < fuel ∧ (x.sub = .nil ∨ x.path = [] ∨ getColor x.sub = .RED))) :
    ∃ x1, deleteFixupLoop fuel x = some x1 ∧
      inorder (plug x1.sub x1.path) = inorder (plug x.sub x.path) ∧
      noRedRed (setColor .BLACK x1.sub) = true ∧ pathOK x1.path := by
  induction fuel generalizing x with
  | zero => omega
  | succ fuel ih =>
    by_cases hcond : x.sub ≠ .nil ∧ x.path ≠ [] ∧ getColor x.sub = .BLACK
    · obtain ⟨hsub, hpath, hb⟩ := hcond
      obtain ⟨t, path⟩ := x
      simp only at hsub hpath hb hn hp
      rw [setColor_black_of_black hb] at hn
      have hlen : path.length + 1 ≤ fuel + 1 := by
        rcases hfuel with h | ⟨-, h | h | h⟩
        · exact h
        · exact absurd h hsub
        · exact absurd h hpath
        · simp only at h; rw [hb] at h; cases h
      cases path with
      | nil => exact absurd rfl hpath
      | cons p rest =>
        obtain ⟨s, pd, pc, w⟩ := p
        have hstep : ∃ x2, deleteFixupBody ⟨t, ⟨s, pd, pc, w⟩ :: rest⟩ = some x2 ∧
            inorder (plug x2.sub x2.path) = inorder (plug t (⟨s, pd, pc, w⟩ :: rest)) ∧
            noRedRed (setColor .BLACK x2.sub) = true ∧ pathOK x2.path ∧
            (x2.path.length = rest.length ∨ x2.path = [] ∨ getColor x2.sub = .RED) := by
          cases s
          · exact deleteFixupLeft_step hn hp
          · exact deleteFixupRight_step hn hp
        obtain ⟨x2, hx2, hin2, hn2, hp2, hend⟩ := hstep
        have hf2 : x2.path.length + 1 ≤ fuel ∨
            (0 < fuel ∧ (x2.sub = .nil ∨ x2.path = [] ∨ getColor x2.sub = .RED)) := by
          simp only [List.length_cons] at hlen
          rcases hend with h | h | h
          · left; omega
          · right; exact ⟨by omega, Or.inr (Or.inl h)⟩
          · right; exact ⟨by omega, Or.inr (Or.inr h)⟩
        obtain ⟨x1, hx1, hin1, hn1, hp1⟩ := ih x2 hn2 hp2 hf2
        refine ⟨x1, ?_, hin1.trans hin2, hn1, hp1⟩
        simp [deleteFixupLoop, hsub, hb, hx2, hx1]
    · exact ⟨x, by simp only [deleteFixupLoop, if_neg hcond], rfl, hn, hp⟩

/-- `deleteFixup` from a node whose ancestors are well formed returns a tree
with BLACK root, without red-red conflict and with the same in-order
sequence. -/
theorem deleteFixup_spec (x : Loc) (hn : noRedRed (setColor .BLACK x.sub) = true)
    (hp : pathOK x.path) :
    ∃ t1, deleteFixup x = some t1 ∧ inorder t1 = inorder (plug x.sub x.path) ∧
      noRedRed t1 = true ∧ rootBlack t1 = true := by
  obtain ⟨x1, hx1, hin, hn1, hp1⟩ :=
    deleteFixupLoop_spec (x.path.length + 1) x hn hp (Or.inl le_rfl)
  refine ⟨plug (setColor .BLACK x1.sub) x1.path, by simp [deleteFixup, hx1], ?_, ?_, ?_⟩
  · rw [← hin, inorder_plug, inorder_plug, inorder_setColor]
  · exact noRedRed_plug hp1 hn1 (Or.inl (getColor_setColor_black _))
  · simp only [rootBlack, decide_eq_true_eq]
    by_cases h : x1.path = []
    · rw [h]; exact getColor_setColor_black _
    · exact getColor_plug _ hp1 h

theorem pathBefore_append (p q : Path) :
    pathBefore (p ++ q) = pathBefore q ++ pathBefore p := by
  induction p with
  | nil => simp [pathBefore]
  | cons f p ih =>
    obtain ⟨s, d, c, sib⟩ := f
    cases s <;> simp [pathBefore, ih]

theorem pathAfter_append (p q : Path) :
    pathAfter (p ++ q) = pathAfter p ++ pathAfter q := by
  induction p with
  | nil => simp [pathAfter]
  | cons f p ih =>
    obtain ⟨s, d, c, sib⟩ := f
    cases s <;> simp [pathAfter, ih]

/-- A subtree without red-red conflict, hanging below well-formed ancestors,
seen from any of its positions. -/
theorem pathOK_append_of_plug {p q : Path} {t : Tree} (h : noRedRed (plug t p) = true)
    (hq : pathOK q) (hc : getColor (plug t p) = .BLACK ∨ headBlack q) :
    pathOK (p ++ q) ∧ noRedRed t = true ∧ (getColor t = .BLACK ∨ headBlack (p ++ q)) := by
  induction p generalizing t with
  | nil => exact ⟨hq, h, hc⟩
  | cons f rest ih =>
    rw [plug_cons] at h hc
    obtain ⟨hrest, hfill, hcol⟩ := ih h hc
    rw [noRedRed_fill] at hfill
    obtain ⟨hf, ht, hs⟩ := hfill
    rw [getColor_fill] at hcol
    refine ⟨⟨hs, fun hred => ⟨(hf hred).2, ?_⟩, hrest⟩, ht, ?_⟩
    · rcases hcol with hcol | hcol
      · rw [hred] at hcol; cases hcol
      · exact hcol
    · by_cases hred : f.color = .RED
      · exact Or.inl (hf hred).1
      · exact Or.inr (color_ne_red.1 hred)

theorem pathBal_append_of_plug {p q : Path} {t : Tree} {m : Nat}
    (h : blackHeight (plug t p) = some m) (hq : pathBal q m) :
    ∃ n, blackHeight t = some n ∧ pathBal (p ++ q) n := by
  induction p generalizing t with
  | nil => exact ⟨m, h, hq⟩
  | cons f rest ih =>
    obtain ⟨k, hk, hrest⟩ := ih h
    obtain ⟨n, ht, hs, rfl⟩ := blackHeight_fill.1 hk
    exact ⟨n, ht, hs, hrest⟩

/-- `minimum` ends at a node without left child, reached through left links
only. -/
theorem minimum_spec (d : Int) (c : Color) (l r : Tree) (p : Path) :
    ∃ dy cy yr spine, minimum (.node d c l r) p = ⟨.node dy cy .nil yr, spine ++ p⟩ ∧
      plug (.node dy cy .nil yr) spine = .node d c l r ∧ pathBefore spine = [] := by
  induction l generalizing d c r p with
  | nil => exact ⟨d, c, r, [], rfl, rfl, rfl⟩
  | node dl cl ll lr ihl _ =>
    obtain ⟨dy, cy, yr, spine, h1, h2, h3⟩ := ihl dl cl lr (⟨.L, d, c, r⟩ :: p)
    refine ⟨dy, cy, yr, spine ++ [⟨.L, d, c, r⟩], ?_, ?_, ?_⟩
    · simp only [minimum, h1, List.append_assoc, List.singleton_append]
    · rw [plug_append, h2]; rfl
    · rw [pathBefore_append, h3]; rfl

/-- The splice of `deleteNode(Node *z)` at a node `z` whose ancestors are well
formed: it succeeds, removes the value of `z` from the in-order sequence,
leaves well-formed ancestors above the replacement `x`, and in a balanced tree
`x` has black height 0 below a place of black height `weight y`. -/
theorem deleteSplice_spec (zd : Int) (zc : Color) (zl zr : Tree) (zp : Path)
    (hn : noRedRed (.node zd zc zl zr) = true) (hp : pathOK zp)
    (hc : zc = .RED → headBlack zp) :
    ∃ cy x, deleteSplice ⟨.node zd zc zl zr, zp⟩ = some (cy, x) ∧
      inorder (plug x.sub x.path) = pathBefore zp ++ (inorder zl ++ inorder zr) ++ pathAfter zp ∧
      pathOK x.path ∧ noRedRed x.sub = true ∧ (cy = .RED → getColor x.sub = .BLACK) ∧
      (∀ n, blackHeight (.node zd zc zl zr) = some n → pathBal zp n →
        blackHeight x.sub = some 0 ∧ pathBal x.path cy.weight) := by
  obtain ⟨hzc, hnl, hnr⟩ := noRedRed_node.1 hn
  cases zl with
  | nil =>
    refine ⟨zc, ⟨zr, zp⟩, rfl, ?_, hp, hnr, fun h => (hzc h).2, ?_⟩
    · simp [inorder_plug, inorder]
    · intro n hb hpb
      obtain ⟨k, hk1, hk2, rfl⟩ := blackHeight_node.1 hb
      simp only [blackHeight, Option.some.injEq] at hk1
      subst hk1
      exact ⟨hk2, by simpa using hpb⟩
  | node dl cl ll lr =>
    cases zr with
    | nil =>
      refine ⟨zc, ⟨.node dl cl ll lr, zp⟩, rfl, ?_, hp, hnl, fun h => (hzc h).1, ?_⟩
      · simp [inorder_plug, inorder]
      · intro n hb hpb
        obtain ⟨k, hk1, hk2, rfl⟩ := blackHeight_node.1 hb
        simp only [blackHeight, Option.some.injEq] at hk2
        subst hk2
        exact ⟨hk1, by simpa using hpb⟩
    | node dr cr rl rr =>
      obtain ⟨dy, cy, yr, spine, hmin, hplug, hbefore⟩ := minimum_spec dr cr rl rr []
      have hq : pathOK (⟨.R, dy, zc, .node dl cl ll lr⟩ :: zp) :=
        ⟨hnl, fun h => ⟨(hzc h).1, hc h⟩, hp⟩
      have hcol : getColor (plug (.node dy cy .nil yr) spine) = .BLACK ∨
          headBlack (⟨.R, dy, zc, .node dl cl ll lr⟩ :: zp) := by
        rw [hplug]
        by_cases h : zc = .RED
        · exact Or.inl (hzc h).2
        · exact Or.inr (color_ne_red.1 h)
      obtain ⟨hpx, hny, -⟩ := pathOK_append_of_plug (by rw [hplug]; exact hnr) hq hcol
      obtain ⟨hyc, -, hnyr⟩ := noRedRed_node.1 hny
      refine ⟨cy, ⟨yr, spine ++ ⟨.R, dy, zc, .node dl cl ll lr⟩ :: zp⟩, ?_, ?_, hpx, hnyr,
        fun h => (hyc h).2, ?_⟩
      · simp only [deleteSplice, hmin, List.append_nil]
      · have hr : inorder (.node dr cr rl rr) = dy :: inorder yr ++ pathAfter spine := by
          rw [← hplug, inorder_plug, hbefore]; simp [inorder]
        simp only [inorder_plug, pathBefore_append, pathAfter_append, hbefore, pathBefore,
          pathAfter, hr]
        simp
      · intro n hb hpb
        obtain ⟨k, hk1, hk2, rfl⟩ := blackHeight_node.1 hb
        have hq2 : pathBal (⟨.R, dy, zc, .node dl cl ll lr⟩ :: zp) k := ⟨hk1, hpb⟩
        rw [← hplug] at hk2
        obtain ⟨j, hj, hpj⟩ := pathBal_append_of_plug hk2 hq2
        obtain ⟨i, hi1, hi2, rfl⟩ := blackHeight_node.1 hj
        simp only [blackHeight, Option.some.injEq] at hi1
        subst hi1
        exact ⟨hi2, by simpa using hpj⟩

theorem append_cons_of_all_eq {l post : List Int} {v : Int} (h : ∀ x ∈ l, x = v) :
    l ++ v :: post = v :: (l ++ post) := by
  induction l with
  | nil => rfl
  | cons a l ih =>
    have ha : a = v := h a (List.mem_cons_self _ _)
    subst ha
    simp only [List.cons_append]
    rw [ih (fun x hx => h x (List.mem_cons_of_mem _ hx))]

/-- In a sorted list, removing any occurrence of a value gives the same list
as removing its first occurrence. -/
theorem erase_of_sorted {pre post : List Int} {v : Int}
    (hs : (pre ++ v :: post).Sorted (· ≤ ·)) : (pre ++ v :: post).erase v = pre ++ post := by
  induction pre with
  | nil => simp
  | cons a pre ih =>
    simp only [List.cons_append, List.sorted_cons] at hs
    obtain ⟨ha, hs1⟩ := hs
    by_cases hav : a = v
    · subst hav
      simp only [List.cons_append, List.erase_cons_head]
      apply append_cons_of_all_eq
      intro x hx
      have h1 : a ≤ x := ha x (List.mem_append_left _ hx)
      have h2 : x ≤ a := by
        have := List.pairwise_append.1 hs1
        exact this.2.2 x hx a (List.mem_cons_self _ _)
      exact le_antisymm h2 h1
    · simp only [List.cons_append]
      rw [List.erase_cons_tail (by simpa using hav), ih hs1]

/-- `deleteNode(Node *z)` at a node of a tree with BLACK root and without
red-red conflict: it returns a tree with the same two properties whose
in-order sequence lost the value of `z` at the place of `z`. -/
theorem deleteNodeAt_spec (zd : Int) (zc : Color) (zl zr : Tree) (zp : Path)
    (hn : noRedRed (plug (.node zd zc zl zr) zp) = true)
    (hr : getColor (plug (.node zd zc zl zr) zp) = .BLACK) :
    ∃ t1, deleteNodeAt ⟨.node zd zc zl zr, zp⟩ = some t1 ∧
      inorder t1 = pathBefore zp ++ (inorder zl ++ inorder zr) ++ pathAfter zp ∧
      noRedRed t1 = true ∧ rootBlack t1 = true := by
  obtain ⟨hp, hnz, hcz⟩ := pathOK_of_plug hn hr
  have hc : zc = .RED → headBlack zp := by
    intro h
    rcases hcz with h1 | h1
    · simp only [getColor] at h1; rw [h] at h1; cases h1
    · exact h1
  obtain ⟨cy, x, hsp, hin, hpx, hnx, hcx, -⟩ := deleteSplice_spec zd zc zl zr zp hnz hp hc
  by_cases hfix : cy = .BLACK ∧ x.sub ≠ .nil
  · obtain ⟨t1, h1, hin1, hn1, hr1⟩ := deleteFixup_spec x (noRedRed_setColor_black hnx) hpx
    refine ⟨t1, ?_, hin1.trans hin, hn1, hr1⟩
    simp only [deleteNodeAt, hsp, deleteFinish, if_pos hfix, h1]
  · have hxb : getColor x.sub = .BLACK := by
      by_cases hcy : cy = .RED
      · exact hcx hcy
      · have : x.sub = .nil := by
          by_contra h
          exact hfix ⟨color_ne_red.1 hcy, h⟩
        rw [this]; rfl
    refine ⟨plug x.sub x.path, ?_, hin, noRedRed_plug hpx hnx (Or.inl hxb), ?_⟩
    · simp only [deleteNodeAt, hsp, deleteFinish, if_neg hfix]
    · simp only [rootBlack, decide_eq_true_eq]
      by_cases h : x.path = []
      · rw [h]; exact hxb
      · exact getColor_plug _ hpx h

/-- `deleteNode(v)` on a tree satisfying invariants 2, 3 and 5 returns a tree
satisfying them whose in-order sequence is the old one without one occurrence
of `v`. -/
theorem deleteNode_good (t : Tree) (v : Int) (h : Good t) :
    ∃ t1, deleteNode t v = some t1 ∧ Good t1 ∧ inorder t1 = (inorder t).erase v := by
  obtain ⟨hr, hn, ho⟩ := h
  have hr1 : getColor t = .BLACK := by simpa [rootBlack] using hr
  cases hs : search t v with
  | none =>
    have hv : v ∉ inorder t := ((search_ordered t v ho).2.1).1 hs
    exact ⟨t, by simp [deleteNode, hs], ⟨hr, hn, ho⟩, (List.erase_of_not_mem hv).symm⟩
  | some z =>
    obtain ⟨⟨c, l, r, hsub⟩, hplug⟩ := searchFrom_some v t [] z hs
    obtain ⟨sub, zp⟩ := z
    simp only at hsub hplug
    subst hsub
    simp only [plug_nil_path] at hplug
    obtain ⟨t1, h1, hin, hn1, hr1⟩ :=
      deleteNodeAt_spec v c l r zp (by rw [hplug]; exact hn) (by rw [hplug]; exact hr1)
    have hdec : inorder t = (pathBefore zp ++ inorder l) ++ v :: (inorder r ++ pathAfter zp) := by
      rw [← hplug, inorder_plug]; simp [inorder]
    have hin1 : inorder t1 = (pathBefore zp ++ inorder l) ++ (inorder r ++ pathAfter zp) := by
      rw [hin]; simp
    unfold ordered at ho
    rw [hdec] at ho
    refine ⟨t1, by simp [deleteNode, hs, h1], ⟨hr1, hn1, ?_⟩, ?_⟩
    · unfold ordered
      rw [hin1]
      exact ho.sublist (List.Sublist.append_left (List.sublist_cons_self _ _) _)
    · rw [hin1, hdec, erase_of_sorted ho]

theorem good_nil : Good .nil := ⟨rfl, rfl, List.sorted_nil⟩

theorem apply_good (t : Tree) (op : Op) (h : Good t) : ∃ t1, op.apply t = some t1 ∧ Good t1 := by
  cases op with
  | insert v =>
    obtain ⟨t1, h1, hg, -, -⟩ := insert_good t v h
    exact ⟨t1, h1, hg⟩
  | deleteNode v =>
    obtain ⟨t1, h1, hg, -⟩ := deleteNode_good t v h
    exact ⟨t1, h1, hg⟩

/-- Every sequence of calls from a tree satisfying invariants 2, 3 and 5 runs
to the end without reading an absent node and ends in such a tree. -/
theorem runOps_good (t : Tree) (ops : List Op) (h : Good t) :
    ∃ t1, runOps t ops = some t1 ∧ Good t1 := by
  induction ops generalizing t with
  | nil => exact ⟨t, rfl, h⟩
  | cons op ops ih =>
    obtain ⟨t1, h1, hg1⟩ := apply_good t op h
    obtain ⟨t2, h2, hg2⟩ := ih t1 hg1
    exact ⟨t2, by simp [runOps, h1, h2], hg2⟩

theorem reachable_good {t : Tree} (h : Reachable t) : Good t := by
  obtain ⟨ops, hops⟩ := h
  obtain ⟨t1, h1, hg⟩ := runOps_good .nil ops good_nil
  rw [hops] at h1
  cases h1
  exact hg

theorem size_eq_length (t : Tree) : size t = (inorder t).length := by
  induction t with
  | nil => rfl
  | node d c l r ihl ihr => simp [size, inorder, ihl, ihr]; omega

theorem allValues_iff (P : Int → Prop) (t : Tree) :
    allValues P t ↔ ∀ x ∈ inorder t, P x := by
  induction t with
  | nil => simp [allValues, inorder]
  | node d c l r ihl ihr =>
    simp only [allValues, inorder, List.mem_append, List.mem_cons, ihl, ihr]
    constructor
    · rintro ⟨h1, h2, h3⟩ x (hx | rfl | hx)
      · exact h2 x hx
      · exact h1
      · exact h3 x hx
    · intro h
      exact ⟨h d (Or.inr (Or.inl rfl)), fun x hx => h x (Or.inl hx),
        fun x hx => h x (Or.inr (Or.inr hx))⟩

theorem bstWeak_of_sorted (t : Tree) (h : (inorder t).Sorted (· ≤ ·)) : bstWeak t := by
  induction t with
  | nil => trivial
  | node d c l r ihl ihr =>
    simp only [inorder, List.Sorted, List.pairwise_append, List.pairwise_cons,
      List.mem_cons] at h
    obtain ⟨hsl, ⟨hdr, hsr⟩, hlr⟩ := h
    refine ⟨?_, ?_, ihl hsl, ihr hsr⟩
    · rw [allValues_iff]
      exact fun x hx => hlr x hx d (Or.inl rfl)
    · rw [allValues_iff]
      exact hdr

/-- C3: every finite sequence of `insert` and `deleteNode` calls on the empty
tree runs to the end and leaves a tree whose in-order traversal is
non-decreasing. -/
theorem inorder_sorted_after_calls (ops : List Op) :
    ∃ t, runOps .nil ops = some t ∧ (inorder t).Sorted (· ≤ ·) := by
  obtain ⟨t, h, -, -, ho⟩ := runOps_good .nil ops good_nil
  exact ⟨t, h, ho⟩

/-- C4: on every reachable tree, `search(v)` returns a node exactly when some
node stores `v`, the node it returns stores `v`, and otherwise it returns the
not-found result. -/
theorem search_finds_iff_stored (t : Tree) (v : Int) (h : Reachable t) :
    ((∃ z, search t v = some z) ↔ v ∈ inorder t) ∧
      (search t v = none ↔ v ∉ inorder t) ∧
      (∀ z, search t v = some z → dataOf (some z) = some v) :=
  search_ordered t v (reachable_good h).2.2

theorem search_finds_iff_stored_witness :
    Reachable (.node 5 .BLACK (.node 5 .RED .nil .nil) (.node 5 .RED .nil .nil)) ∧
      (((∃ z, search (.node 5 .BLACK (.node 5 .RED .nil .nil) (.node 5 .RED .nil .nil)) 5
          = some z) ↔
        (5 : Int) ∈ inorder (.node 5 .BLACK (.node 5 .RED .nil .nil) (.node 5 .RED .nil .nil))) ∧
      (search (.node 5 .BLACK (.node 5 .RED .nil .nil) (.node 5 .RED .nil .nil)) 5 = none ↔
        (5 : Int) ∉ inorder (.node 5 .BLACK (.node 5 .RED .nil .nil) (.node 5 .RED .nil .nil))) ∧
      (∀ z, search (.node 5 .BLACK (.node 5 .RED .nil .nil) (.node 5 .RED .nil .nil)) 5 = some z →
        dataOf (some z) = some 5)) :=
  ⟨⟨[.insert 5, .insert 5, .insert 5], by decide⟩,
    search_finds_iff_stored _ 5 ⟨[.insert 5, .insert 5, .insert 5], by decide⟩⟩

/-- C5: on every reachable tree, `insert(v)` returns and `search(v)` on the
result finds a node that stores `v`. -/
theorem search_after_insert (t : Tree) (v : Int) (h : Reachable t) :
    ∃ t1 z, insert t v = some t1 ∧ search t1 v = some z ∧ dataOf (some z) = some v := by
  obtain ⟨t1, h1, hg, ⟨pre, post, -, hin, -, -⟩, -⟩ := insert_good t v (reachable_good h)
  obtain ⟨hfound, -, hdata⟩ := search_ordered t1 v hg.2.2
  obtain ⟨z, hz⟩ := hfound.2 (by rw [hin]; simp)
  exact ⟨t1, z, h1, hz, hdata z hz⟩

theorem search_after_insert_witness :
    Reachable (.node 20 .BLACK (.node 10 .RED .nil .nil) (.node 30 .RED .nil .nil)) ∧
      ∃ t1 z, insert (.node 20 .BLACK (.node 10 .RED .nil .nil) (.node 30 .RED .nil .nil)) 20
        = some t1 ∧ search t1 20 = some z ∧ dataOf (some z) = some 20 :=
  ⟨⟨[.insert 10, .insert 20, .insert 30], by decide⟩,
    search_after_insert _ 20 ⟨[.insert 10, .insert 20, .insert 30], by decide⟩⟩

/-- C6: on every reachable tree that does not store `v`, `insert(v)` followed
by `deleteNode(v)` returns a tree on which `search(v)` finds nothing. -/
theorem search_after_insert_delete (t : Tree) (v : Int) (h : Reachable t)
    (hv : v ∉ inorder t) :
    ∃ t1 t2, insert t v = some t1 ∧ deleteNode t1 v = some t2 ∧ search t2 v = none := by
  obtain ⟨t1, h1, hg1, ⟨pre, post, hdec, hin, -, -⟩, -⟩ := insert_good t v (reachable_good h)
  obtain ⟨t2, h2, hg2, hin2⟩ := deleteNode_good t1 v hg1
  refine ⟨t1, t2, h1, h2, ?_⟩
  rw [(search_ordered t2 v hg2.2.2).2.1, hin2, hin]
  have hs : (pre ++ v :: post).Sorted (· ≤ ·) := by
    have := hg1.2.2
    unfold ordered at this
    rwa [hin] at this
  rw [erase_of_sorted hs, ← hdec]
  exact hv

theorem search_after_insert_delete_witness :
    Reachable (.node 20 .BLACK (.node 10 .RED .nil .nil) (.node 30 .RED .nil .nil)) ∧
      (25 : Int) ∉ inorder (.node 20 .BLACK (.node 10 .RED .nil .nil) (.node 30 .RED .nil .nil)) ∧
      ∃ t1 t2, insert (.node 20 .BLACK (.node 10 .RED .nil .nil) (.node 30 .RED .nil .nil)) 25
        = some t1 ∧ deleteNode t1 25 = some t2 ∧ search t2 25 = none :=
  ⟨⟨[.insert 10, .insert 20, .insert 30], by decide⟩, by decide,
    search_after_insert_delete _ 25 ⟨[.insert 10, .insert 20, .insert 30], by decide⟩
      (by decide)⟩

/-- C7: on every reachable tree that stores `v`, `deleteNode(v)` returns a
tree whose in-order list is the old one with a single occurrence of `v`
removed: the number of nodes with value `v` drops by one and every other value
keeps its multiplicity. -/
theorem deleteNode_removes_one (t : Tree) (v : Int) (h : Reachable t) (hv : v ∈ inorder t) :
    ∃ t1, deleteNode t v = some t1 ∧ inorder t1 = (inorder t).erase v ∧
      (inorder t1).count v + 1 = (inorder t).count v ∧
      (∀ u, u ≠ v → (inorder t1).count u = (inorder t).count u) ∧
      size t1 + 1 = size t := by
  obtain ⟨t1, h1, -, hin⟩ := deleteNode_good t v (reachable_good h)
  refine ⟨t1, h1, hin, ?_, ?_, ?_⟩
  · rw [hin, List.count_erase_self]
    have : 0 < (inorder t).count v := List.count_pos_iff.2 hv
    omega
  · intro u hu
    rw [hin, List.count_erase_of_ne hu]
  · rw [size_eq_length, size_eq_length, hin, List.length_erase_of_mem hv]
    have : 0 < (inorder t).length := List.length_pos_of_mem hv
    omega

theorem deleteNode_removes_one_witness :
    Reachable (.node 5 .BLACK (.node 5 .RED .nil .nil) (.node 5 .RED .nil .nil)) ∧
      ∃ t1, deleteNode (.node 5 .BLACK (.node 5 .RED .nil .nil) (.node 5 .RED .nil .nil)) 5
          = some t1 ∧
        inorder t1 =
          (inorder (.node 5 .BLACK (.node 5 .RED .nil .nil) (.node 5 .RED .nil .nil))).erase 5 ∧
        (inorder t1).count 5 + 1 =
          (inorder (.node 5 .BLACK (.node 5 .RED .nil .nil) (.node 5 .RED .nil .nil))).count 5 ∧
        (∀ u, u ≠ 5 → (inorder t1).count u =
          (inorder (.node 5 .BLACK (.node 5 .RED .nil .nil) (.node 5 .RED .nil .nil))).count u) ∧
        size t1 + 1 = size (.node 5 .BLACK (.node 5 .RED .nil .nil) (.node 5 .RED .nil .nil)) :=
  ⟨⟨[.insert 5, .insert 5, .insert 5], by decide⟩,
    deleteNode_removes_one _ 5 ⟨[.insert 5, .insert 5, .insert 5], by decide⟩ (by decide)⟩

/-- C12 (amended): in every reachable tree, at every node the values of the
left subtree are smaller than or equal to the node's value and the values of
the right subtree are greater than or equal to it. -/
theorem reachable_bstWeak (t : Tree) (h : Reachable t) : bstWeak t :=
  bstWeak_of_sorted t (reachable_good h).2.2

theorem reachable_bstWeak_witness :
    Reachable (.node 5 .BLACK (.node 5 .RED .nil .nil) (.node 5 .RED .nil .nil)) ∧
      bstWeak (.node 5 .BLACK (.node 5 .RED .nil .nil) (.node 5 .RED .nil .nil)) :=
  ⟨⟨[.insert 5, .insert 5, .insert 5], by decide⟩,
    reachable_bstWeak _ ⟨[.insert 5, .insert 5, .insert 5], by decide⟩⟩

/-- C13: every finite sequence of `insert` and `deleteNode` calls on the empty
tree runs to the end and leaves a tree whose root is absent or BLACK. -/
theorem root_black_after_calls (ops : List Op) :
    ∃ t, runOps .nil ops = some t ∧ getColor t = .BLACK := by
  obtain ⟨t, h, hr, -, -⟩ := runOps_good .nil ops good_nil
  exact ⟨t, h, by simpa [rootBlack] using hr⟩

/-- C14: every finite sequence of `insert` and `deleteNode` calls on the empty
tree runs to the end and leaves a tree in which no RED node has a RED
child. -/
theorem no_red_red_after_calls (ops : List Op) :
    ∃ t, runOps .nil ops = some t ∧ noRedRed t = true := by
  obtain ⟨t, h, -, hn, -⟩ := runOps_good .nil ops good_nil
  exact ⟨t, h, hn⟩

/-- C18: no finite sequence of `insert` and `deleteNode` calls on the empty
tree reaches a failure of the embedding, that is a rotation whose pivot child
is absent or a read of a field of an absent node: every call returns a tree,
and so does every further call on the tree reached. -/
theorem calls_never_fail (ops : List Op) :
    ∃ t, runOps .nil ops = some t ∧
      ∀ v, (∃ t1, insert t v = some t1) ∧ (∃ t2, deleteNode t v = some t2) := by
  obtain ⟨t, h, hg⟩ := runOps_good .nil ops good_nil
  refine ⟨t, h, fun v => ⟨?_, ?_⟩⟩
  · obtain ⟨t1, h1, -⟩ := insert_good t v hg
    exact ⟨t1, h1⟩
  · obtain ⟨t2, h2, -⟩ := deleteNode_good t v hg
    exact ⟨t2, h2⟩

theorem blackHeight_zero_black {t : Tree} (hc : getColor t = .BLACK)
    (hb : blackHeight t = some 0) : t = .nil := by
  cases t with
  | nil => rfl
  | node d c l r =>
    simp only [getColor] at hc
    subst hc
    obtain ⟨n, -, -, hn⟩ := blackHeight_node.1 hb
    simp [Color.weight] at hn

/-- A present subtree of black height 0 without red-red conflict is a single
RED node. -/
theorem blackHeight_zero_node {t : Tree} (hn : noRedRed t = true)
    (hb : blackHeight t = some 0) (ht : t ≠ .nil) : ∃ d, t = .node d .RED .nil .nil := by
  cases t with
  | nil => exact absurd rfl ht
  | node d c l r =>
    obtain ⟨n, hl, hr, h0⟩ := blackHeight_node.1 hb
    obtain ⟨hc, -, -⟩ := noRedRed_node.1 hn
    cases c with
    | BLACK => simp [Color.weight] at h0
    | RED =>
      simp only [Color.weight, Nat.add_zero] at h0
      subst h0
      obtain ⟨hlb, hrb⟩ := hc rfl
      rw [blackHeight_zero_black hlb hl, blackHeight_zero_black hrb hr]
      exact ⟨d, rfl⟩

theorem deleteFixupLoop_red (fuel : Nat) (x : Loc) (h : getColor x.sub = .RED) :
    deleteFixupLoop (fuel + 1) x = some x := by
  simp [deleteFixupLoop, h]

/-- What `deleteNode(Node *z)` does at a node of a red-black tree: the splice
succeeds; when the spliced-out node is RED the splice is the result; when it
is BLACK and its replacement `x` is present, `x` is a RED node without
children and `deleteFixup` recolours it without entering its loop; in both
cases the result is balanced. -/
theorem deleteSplice_balanced (zd : Int) (zc : Color) (zl zr : Tree) (zp : Path)
    (hr : getColor (plug (.node zd zc zl zr) zp) = .BLACK)
    (hn : noRedRed (plug (.node zd zc zl zr) zp) = true)
    (hb : (blackHeight (plug (.node zd zc zl zr) zp)).isSome = true) :
    ∃ cy x, deleteSplice ⟨.node zd zc zl zr, zp⟩ = some (cy, x) ∧
      (cy = .RED → deleteNodeAt ⟨.node zd zc zl zr, zp⟩ = some (plug x.sub x.path) ∧
        ∃ k, blackHeight (plug x.sub x.path) = some k) ∧
      (cy = .BLACK → x.sub ≠ .nil →
        (∃ d, x.sub = .node d .RED .nil .nil) ∧
        (∀ fuel, deleteFixupLoop (fuel + 1) x = some x) ∧
        deleteFixup x = some (plug (setColor .BLACK x.sub) x.path) ∧
        deleteNodeAt ⟨.node zd zc zl zr, zp⟩ = some (plug (setColor .BLACK x.sub) x.path) ∧
        ∃ k, blackHeight (plug (setColor .BLACK x.sub) x.path) = some k) := by
  obtain ⟨hp, hnz, hcz⟩ := pathOK_of_plug hn hr
  have hc : zc = .RED → headBlack zp := by
    intro h
    rcases hcz with h1 | h1
    · simp only [getColor] at h1; rw [h] at h1; cases h1
    · exact h1
  obtain ⟨m, hm⟩ := Option.isSome_iff_exists.1 hb
  obtain ⟨n, hbz, hpz⟩ := pathBal_of_plug hm
  obtain ⟨cy, x, hsp, -, hpx, hnx, -, hbal⟩ := deleteSplice_spec zd zc zl zr zp hnz hp hc
  obtain ⟨hbx, hpbx⟩ := hbal n hbz hpz
  refine ⟨cy, x, hsp, ?_, ?_⟩
  · intro hcy
    subst hcy
    refine ⟨?_, blackHeight_plug hpbx (by simpa [Color.weight] using hbx)⟩
    simp [deleteNodeAt, hsp, deleteFinish]
  · intro hcy hx
    subst hcy
    obtain ⟨d, hd⟩ := blackHeight_zero_node hnx hbx hx
    have hred : getColor x.sub = .RED := by rw [hd]; rfl
    have hfix : deleteFixup x = some (plug (setColor .BLACK x.sub) x.path) := by
      simp [deleteFixup, deleteFixupLoop_red _ x hred]
    refine ⟨⟨d, hd⟩, fun fuel => deleteFixupLoop_red fuel x hred, hfix, ?_, ?_⟩
    · simp [deleteNodeAt, hsp, deleteFinish, hx, hfix]
    · apply blackHeight_plug hpbx
      rw [hd]
      rfl

/-- C20: for every node `z` of a tree that satisfies the colour invariants
(BLACK root, no RED node with a RED child, equal BLACK count on all paths),
whenever `deleteNode(z)` calls `deleteFixup(x)` (the spliced-out node was
BLACK and `x` is present), `x` is RED and has no children, the loop of
`deleteFixup` returns `x` without executing its body, and the result of
`deleteNode(z)` is the spliced tree with `x` recoloured BLACK. -/
theorem deleteFixup_only_recolours (zd : Int) (zc : Color) (zl zr : Tree) (zp : Path)
    (hr : rootBlack (plug (.node zd zc zl zr) zp) = true)
    (hn : noRedRed (plug (.node zd zc zl zr) zp) = true)
    (hb : (blackHeight (plug (.node zd zc zl zr) zp)).isSome = true) :
    ∃ cy x, deleteSplice ⟨.node zd zc zl zr, zp⟩ = some (cy, x) ∧
      (cy = .BLACK → x.sub ≠ .nil →
        (∃ d, x.sub = .node d .RED .nil .nil) ∧
        (∀ fuel, deleteFixupLoop (fuel + 1) x = some x) ∧
        deleteFixup x = some (plug (setColor .BLACK x.sub) x.path) ∧
        deleteNodeAt ⟨.node zd zc zl zr, zp⟩ = some (plug (setColor .BLACK x.sub) x.path)) := by
  have hr0 : getColor (plug (.node zd zc zl zr) zp) = .BLACK := by simpa [rootBlack] using hr
  obtain ⟨cy, x, hsp, -, hblack⟩ := deleteSplice_balanced zd zc zl zr zp hr0 hn hb
  refine ⟨cy, x, hsp, fun hcy hx => ?_⟩
  obtain ⟨h1, h2, h3, h4, -⟩ := hblack hcy hx
  exact ⟨h1, h2, h3, h4⟩

theorem deleteFixup_only_recolours_witness :
    ∃ cy x, deleteSplice ⟨.node 3 .BLACK .nil (.node 4 .RED .nil .nil),
        [⟨.R, 2, .BLACK, .node 1 .BLACK .nil .nil⟩]⟩ = some (cy, x) ∧
      (cy = .BLACK → x.sub ≠ .nil →
        (∃ d, x.sub = .node d .RED .nil .nil) ∧
        (∀ fuel, deleteFixupLoop (fuel + 1) x = some x) ∧
        deleteFixup x = some (plug (setColor .BLACK x.sub) x.path) ∧
        deleteNodeAt ⟨.node 3 .BLACK .nil (.node 4 .RED .nil .nil),
            [⟨.R, 2, .BLACK, .node 1 .BLACK .nil .nil⟩]⟩
          = some (plug (setColor .BLACK x.sub) x.path)) :=
  deleteFixup_only_recolours 3 .BLACK .nil (.node 4 .RED .nil .nil)
    [⟨.R, 2, .BLACK, .node 1 .BLACK .nil .nil⟩] (by decide) (by decide) (by decide)

@[simp] theorem getColor_skel (t : Tree) : getColor (skel t) = getColor t := by
  cases t <;> rfl

@[simp] theorem skel_setColor (c : Color) (t : Tree) : skel (setColor c t) = setColor c (skel t) := by
  cases t <;> rfl

@[simp] theorem skel_fill (f : Frame) (t : Tree) :
    skel (f.fill t) = (skelFrame f).fill (skel t) := by
  obtain ⟨s, d, c, sib⟩ := f
  cases s <;> rfl

theorem skel_plug (t : Tree) (p : Path) : skel (plug t p) = plug (skel t) (p.map skelFrame) := by
  induction p generalizing t with
  | nil => rfl
  | cons f p ih => simp [ih]

/-- The loop body of `insertFixup` does not look at the stored values. -/
theorem skelLoc_insertFixupBody (z : Loc) :
    insertFixupBody (skelLoc z) = (insertFixupBody z).map skelLoc := by
  obtain ⟨t, path⟩ := z
  cases path with
  | nil => rfl
  | cons p rest0 =>
    cases rest0 with
    | nil => rfl
    | cons g rest =>
      obtain ⟨sp, pd, pc, ps⟩ := p
      obtain ⟨sg, gd, gc, gs⟩ := g
      by_cases hu : getColor gs = .RED
      · rw [insertFixupBody_red _ _ _ _ hu]
        have h2 := insertFixupBody_red (skel t) (skelFrame ⟨sp, pd, pc, ps⟩)
          (skelFrame ⟨sg, gd, gc, gs⟩) (rest.map skelFrame) (by simpa [skelFrame] using hu)
        simp only [skelLoc, List.map_cons]
        rw [h2]
        simp [skelLoc, skelFrame]
      · have hub := color_ne_red.1 hu
        cases sg <;> cases sp
        · rw [insertFixupBody_LL _ _ _ _ _ _ _ _ hub]
          simp only [skelLoc, List.map_cons, skelFrame]
          rw [insertFixupBody_LL _ _ _ _ _ _ _ _ (by simpa using hub)]
          simp [skelLoc, skelFrame, skel]
        · cases t with
          | nil =>
            simp [skelLoc, skelFrame, skel, insertFixupBody, hub, Loc.up, leftRotate, Frame.fill]
          | node zd zc zl zr =>
            rw [insertFixupBody_LR _ _ _ _ _ _ _ _ _ _ _ hub]
            simp only [skelLoc, List.map_cons, skelFrame, skel]
            rw [insertFixupBody_LR _ _ _ _ _ _ _ _ _ _ _ (by simpa using hub)]
            simp [skelLoc, skelFrame, skel]
        · cases t with
          | nil =>
            simp [skelLoc, skelFrame, skel, insertFixupBody, hub, Loc.up, rightRotate, Frame.fill]
          | node zd zc zl zr =>
            rw [insertFixupBody_RL _ _ _ _ _ _ _ _ _ _ _ hub]
            simp only [skelLoc, List.map_cons, skelFrame, skel]
            rw [insertFixupBody_RL _ _ _ _ _ _ _ _ _ _ _ (by simpa using hub)]
            simp [skelLoc, skelFrame, skel]
        · rw [insertFixupBody_RR _ _ _ _ _ _ _ _ hub]
          simp only [skelLoc, List.map_cons, skelFrame]
          rw [insertFixupBody_RR _ _ _ _ _ _ _ _ (by simpa using hub)]
          simp [skelLoc, skelFrame, skel]


theorem skelLoc_insertFixupLoop (fuel : Nat) (z : Loc) :
    insertFixupLoop fuel (skelLoc z) = (insertFixupLoop fuel z).map skelLoc := by
  induction fuel generalizing z with
  | zero => rfl
  | succ fuel ih =>
    obtain ⟨t, path⟩ := z
    cases path with
    | nil => rfl
    | cons p rest =>
      by_cases hred : p.color = .RED
      · have h1 : insertFixupLoop (fuel + 1) ⟨t, p :: rest⟩ =
            insertFixupBody ⟨t, p :: rest⟩ >>= insertFixupLoop fuel := by
          simp [insertFixupLoop, hred]
        have h2 : insertFixupLoop (fuel + 1) (skelLoc ⟨t, p :: rest⟩) =
            insertFixupBody (skelLoc ⟨t, p :: rest⟩) >>= insertFixupLoop fuel := by
          simp [insertFixupLoop, skelLoc, skelFrame, hred]
        rw [h1, h2, skelLoc_insertFixupBody]
        cases insertFixupBody ⟨t, p :: rest⟩ with
        | none => rfl
        | some z1 => simpa using ih z1
      · simp [insertFixupLoop, skelLoc, skelFrame, hred]

/-- `insertFixup` does not look at the stored values: on a tree with other
values at the same places it returns the tree of the same shape and colours
with those values at the corresponding places. -/
theorem skel_insertFixup (z : Loc) : insertFixup (skelLoc z) = (insertFixup z).map skel := by
  have hlen : (skelLoc z).path.length = z.path.length := by simp [skelLoc]
  simp only [insertFixup, hlen, skelLoc_insertFixupLoop]
  cases insertFixupLoop (z.path.length + 1) z with
  | none => rfl
  | some z1 =>
    have hp : plug (skelLoc z1).sub (skelLoc z1).path = skel (plug z1.sub z1.path) := by
      rw [skel_plug]; rfl
    simp only [Option.map_some', hp]
    cases plug z1.sub z1.path <;> rfl

/-- `insertFixup` from a new RED leaf at a position below well-formed
ancestors returns a tree whose in-order sequence has the value of the leaf at
that position. -/
theorem insertFixup_leaf_spec (q : Path) (d : Int) (hq : pathOK q) :
    ∃ t1, insertFixup ⟨.node d .RED .nil .nil, q⟩ = some t1 ∧
      inorder t1 = pathBefore q ++ d :: pathAfter q := by
  obtain ⟨z1, hz1, hin, hc1, -, -, -, -⟩ :=
    insertFixupLoop_spec (q.length + 1) ⟨.node d .RED .nil .nil, q⟩ rfl rfl hq (Or.inl le_rfl)
  obtain ⟨zd, zl, zr, hzsub⟩ := getColor_red_node hc1
  obtain ⟨d1, c1, l1, r1, hnode⟩ := plug_node z1.path zd .RED zl zr
  rw [← hzsub] at hnode
  have hz2 : insertFixupLoop (q.length + 1) ⟨.node d .RED .nil .nil, q⟩ = some z1 := hz1
  refine ⟨.node d1 .BLACK l1 r1, by simp only [insertFixup, hz2, hnode], ?_⟩
  have h2 : inorder (.node d1 .BLACK l1 r1) = inorder (plug z1.sub z1.path) := by
    rw [hnode]; rfl
  rw [h2, hin, inorder_plug]
  simp [inorder]

/-- C15: on every reachable tree, `insert(v)` adds exactly one node and
places it after all equal values.  The descent stops at an absent-child
position of the tree (`insertDescend v t []`) such that every value before
that position in the in-order traversal is less than or equal to `v` and every
value after it is greater than `v`; the new RED leaf is attached there, and
`insert` returns a tree with one more node whose in-order list is the old one
with `v` at that position.  The repair moves no node past another: whatever
value the new leaf carries, `insertFixup` returns a tree of the same shape
and colours in whose in-order list that value stands at the same position. -/
theorem insert_places_after_equal (t : Tree) (v : Int) (h : Reachable t) :
    ∃ t1, insert t v = some t1 ∧ size t1 = size t + 1 ∧
      plug .nil (insertDescend v t []) = t ∧
      insertFixup ⟨.node v .RED .nil .nil, insertDescend v t []⟩ = some t1 ∧
      (∀ x ∈ pathBefore (insertDescend v t []), x ≤ v) ∧
      (∀ x ∈ pathAfter (insertDescend v t []), v < x) ∧
      inorder t = pathBefore (insertDescend v t []) ++ pathAfter (insertDescend v t []) ∧
      inorder t1 =
        pathBefore (insertDescend v t []) ++ v :: pathAfter (insertDescend v t []) ∧
      (∀ d, ∃ t2, insertFixup ⟨.node d .RED .nil .nil, insertDescend v t []⟩ = some t2 ∧
        skel t2 = skel t1 ∧
        inorder t2 =
          pathBefore (insertDescend v t []) ++ d :: pathAfter (insertDescend v t [])) := by
  obtain ⟨hr, hn, ho⟩ := reachable_good h
  have hplug : plug .nil (insertDescend v t []) = t := by rw [plug_insertDescend]; rfl
  have hr1 : getColor t = .BLACK := by simpa [rootBlack] using hr
  obtain ⟨hq, -, -⟩ := pathOK_of_plug (p := insertDescend v t []) (t := .nil)
    (by rw [hplug]; exact hn) (by rw [hplug]; exact hr1)
  obtain ⟨t1, h1, hin⟩ := insertFixup_leaf_spec (insertDescend v t []) v hq
  obtain ⟨hb, ha⟩ := insertDescend_bounds v t [] ho (by simp [pathBefore]) (by simp [pathAfter])
  have hdec : inorder t =
      pathBefore (insertDescend v t []) ++ pathAfter (insertDescend v t []) := by
    have := inorder_plug .nil (insertDescend v t [])
    rw [hplug] at this
    simpa [inorder] using this
  refine ⟨t1, h1, ?_, hplug, h1, hb, ha, hdec, hin, ?_⟩
  · rw [size_eq_length, size_eq_length, hin, hdec]
    simp only [List.length_append, List.length_cons]
    omega
  · intro d
    obtain ⟨t2, h2, hin2⟩ := insertFixup_leaf_spec (insertDescend v t []) d hq
    refine ⟨t2, h2, ?_, hin2⟩
    have e1 := skel_insertFixup ⟨.node d .RED .nil .nil, insertDescend v t []⟩
    have e2 := skel_insertFixup ⟨.node v .RED .nil .nil, insertDescend v t []⟩
    have e3 : skelLoc ⟨.node d .RED .nil .nil, insertDescend v t []⟩ =
        skelLoc ⟨.node v .RED .nil .nil, insertDescend v t []⟩ := rfl
    rw [h2] at e1
    rw [h1] at e2
    rw [e3, e2] at e1
    simpa using e1.symm

theorem insert_places_after_equal_witness :
    Reachable (.node 20 .BLACK (.node 10 .RED .nil .nil) (.node 30 .RED .nil .nil)) ∧
      insert (.node 20 .BLACK (.node 10 .RED .nil .nil) (.node 30 .RED .nil .nil)) 20 =
        some (.node 20 .BLACK (.node 10 .BLACK .nil .nil)
          (.node 30 .BLACK (.node 20 .RED .nil .nil) .nil)) ∧
      insertDescend 20 (.node 20 .BLACK (.node 10 .RED .nil .nil) (.node 30 .RED .nil .nil)) [] =
        [⟨.L, 30, .RED, .nil⟩, ⟨.R, 20, .BLACK, .node 10 .RED .nil .nil⟩] ∧
      ∃ t1, insert (.node 20 .BLACK (.node 10 .RED .nil .nil) (.node 30 .RED .nil .nil)) 20
          = some t1 ∧
        size t1 = size (.node 20 .BLACK (.node 10 .RED .nil .nil) (.node 30 .RED .nil .nil)) + 1 ∧
        inorder t1 = [10, 20] ++ 20 :: [30] := by
  refine ⟨⟨[.insert 10, .insert 20, .insert 30], by decide⟩, by decide, by decide, ?_⟩
  obtain ⟨t1, h1, hs, -, -, -, -, -, hin, -⟩ :=
    insert_places_after_equal (.node 20 .BLACK (.node 10 .RED .nil .nil) (.node 30 .RED .nil .nil))
      20 ⟨[.insert 10, .insert 20, .insert 30], by decide⟩
  refine ⟨t1, h1, hs, ?_⟩
  rw [hin]
  decide

end RBTree
